import Mathlib

/-! Verification of flexrayusbinterface: the Calibration store and the command slot.

A shallow embedding of `include/flexrayusbinterface/Calibration.hpp` and of
`include/flexrayusbinterface/Muscle.hpp` (`Slot`, `Entangled`, `CompletionGuard`),
followed by the properties proved about them.

* `std::bitset<N>` is a natural number below `2 ^ N`; bit `t` of the number
  says whether target `t` is a member.
* `Calibration<std::bitset<N>, Params>` is its only data member, the vector
  `parameter_groups`, as a list of pairs.
* `std::promise` / `std::future` are handles onto shared states kept in a
  heap; an operation that can throw `std::future_error` returns `Except`.
* The consumer of a slot is not part of the sources; its two steps follow the
  specification, and a run is a list of producer and consumer steps.
* `Calibration<boost::dynamic_bitset<>, Params>`, used by the tests, is embedded
  apart, with the `&=` of `boost::dynamic_bitset<>`.
-/

set_option autoImplicit false

/-! ## `std::bitset<N>` -/

/-- A `std::bitset<N>`: the `N` bits, least significant first, as a number below `2 ^ N`. -/
structure Bitset (N : Nat) where
  bits : Nat
  lt : bits < 2 ^ N
deriving DecidableEq

namespace Bitset

variable {N : Nat}

/-- The constructor `bitset(unsigned long long val)`: the bits of `val` beyond
the width are dropped. -/
def ofNat (N : Nat) (val : Nat) : Bitset N :=
  ⟨val % 2 ^ N, Nat.mod_lt _ (Nat.pos_pow_of_pos N (by decide))⟩

/-- The member `none()`: no bit is set. -/
def none (b : Bitset N) : Bool :=
  b.bits == 0

/-- The operator `~`: every one of the `N` bits flipped. -/
def flip (b : Bitset N) : Bitset N :=
  ⟨2 ^ N - 1 - b.bits, by
    have h := b.lt
    omega⟩

/-- The operator `&=` (and `&`): bitwise and. -/
def and (a b : Bitset N) : Bitset N :=
  ⟨a.bits &&& b.bits, Nat.and_lt_two_pow _ b.lt⟩

/-- The operator `|`: bitwise or, the union of two target sets. -/
def or (a b : Bitset N) : Bitset N :=
  ⟨a.bits ||| b.bits, Nat.or_lt_two_pow a.lt b.lt⟩

/-- The member `test(t)` for a position inside the set: target `t` is a member. -/
def test (b : Bitset N) (t : Nat) : Bool :=
  b.bits.testBit t

end Bitset

/-! ## `Calibration` -/

/-- The class `Calibration<Bitset, Params>` with `Bitset = std::bitset<N>`: its
data member `parameter_groups`, a vector of `(bitset_t, Params)` pairs. -/
structure Calibration (N : Nat) (Params : Type) where
  parameter_groups : List (Bitset N × Params)

namespace Calibration

variable {N : Nat} {Params : Type}

/-- A default-constructed store: the vector is empty. -/
def fresh : Calibration N Params :=
  ⟨[]⟩

/-- The member `set(target_motors, new_parameters)`.

* `if (target_motors.none()) return;`
* the range-for loop replaces every `group.first` by `group.first & ~target_motors`;
* `std::remove_if` followed by `erase` keeps, in their order, the groups whose
  `first.none()` is false;
* `emplace_back` appends the new pair. -/
def set (c : Calibration N Params) (target_motors : Bitset N) (new_parameters : Params) :
    Calibration N Params :=
  if target_motors.none then c
  else
    let stripped := c.parameter_groups.map
      (fun group => (group.1.and target_motors.flip, group.2))
    let kept := stripped.filter (fun group => !group.1.none)
    ⟨kept ++ [(target_motors, new_parameters)]⟩

/-- The member `get() const&`: the vector of groups. -/
def get (c : Calibration N Params) : List (Bitset N × Params) :=
  c.parameter_groups

/-- A sequence of `set` calls, each given as `(mask, value)`, made in list order. -/
def setAll (c : Calibration N Params) (calls : List (Bitset N × Params)) :
    Calibration N Params :=
  calls.foldl (fun s call => s.set call.1 call.2) c

end Calibration

/-! ### The words of the specification about the store -/

namespace Calibration

variable {N : Nat} {Params : Type}

/-- The union of a list of target sets. -/
def unionOf : List (Bitset N) → Bitset N
  | [] => Bitset.ofNat N 0
  | m :: rest => m.or (unionOf rest)

/-- What the specification says is left of a sequence of calls: every call, in call
order, keeps its mask minus the union of the masks of all later calls, and is
listed when that residual set is not empty. -/
def residuals : List (Bitset N × Params) → List (Bitset N × Params)
  | [] => []
  | call :: later =>
    let residual := call.1.and (unionOf (later.map Prod.fst)).flip
    if residual.none then residuals later else (residual, call.2) :: residuals later

/-- What the specification says an overlapping write does to the existing groups:
each group `(g, p)` becomes `(g AND NOT m, p)`, and is deleted when nothing is
left of it; the other groups keep their relative order. -/
def strippedGroups (m : Bitset N) : List (Bitset N × Params) → List (Bitset N × Params)
  | [] => []
  | group :: rest =>
    if (group.1.and m.flip).none then strippedGroups m rest
    else (group.1.and m.flip, group.2) :: strippedGroups m rest

/-- The number of groups of a list whose target set contains target `t`. -/
def holders (t : Nat) (groups : List (Bitset N × Params)) : Nat :=
  (groups.filter (fun group => group.1.test t)).length

end Calibration

/-! ### The calls made by the tests of `test/Calibration.cpp` -/

namespace Calibration

/-- The calls of `TEST(Calibration, disjoint_targets)`. -/
def disjoint_targets_calls : List (Bitset 5 × Int) :=
  [(Bitset.ofNat 5 0b10000, 0), (Bitset.ofNat 5 0b00010, 3), (Bitset.ofNat 5 0b01000, 1),
    (Bitset.ofNat 5 0b00100, 2)]

/-- The calls of `TEST(Calibration, override_parameters)`. -/
def override_parameters_calls : List (Bitset 5 × Int) :=
  [(Bitset.ofNat 5 0b10101, 0), (Bitset.ofNat 5 0b00111, 1)]

/-- The calls of `TEST(Calibration, no_dangling_parameters)`. -/
def no_dangling_parameters_calls : List (Bitset 5 × Int) :=
  [(Bitset.ofNat 5 0b10101, 0), (Bitset.ofNat 5 0b00111, 1), (Bitset.ofNat 5 0b11000, 2)]

end Calibration

/-! ## `Slot` -/

/-- The enumeration `Completion`. -/
inductive Completion where
  | Completed
  | Preempted
deriving DecidableEq, Repr

/-- The shared state behind a `std::promise<Completion>` and its `std::future`:
no value yet, a value, or abandoned by its promise before a value was set. -/
inductive SharedState where
  | pending
  | ready (value : Completion)
  | broken
deriving DecidableEq, Repr

/-- The error conditions of `std::future_error` raised by `std::promise::set_value` (the first
two) and by `std::future::get`. -/
inductive future_errc where
  | promise_already_satisfied
  | no_state
  | broken_promise
deriving DecidableEq, Repr

/-- A `std::promise<Completion>`: the shared state it refers to, `none` once the
promise has been moved from. -/
structure Promise where
  state : Option Nat
deriving DecidableEq, Repr

/-- A `std::future<Completion>`: the shared state it refers to. -/
structure Future where
  state : Option Nat
deriving DecidableEq, Repr

/-- The memory a slot works on: the shared states allocated so far (a new one takes the
next index) and, by address, the content of every `Mutex<data_t>`, where
`data_t = boost::optional<std::pair<std::promise<result_t>, T>>`. -/
structure Heap (T : Type) where
  shared : List SharedState
  mutexes : Nat → Option (Promise × T)

/-- The class `Slot<T>`: its data member `data`, a `std::reference_wrapper` holding the
address of the guarded cell. -/
structure Slot where
  data : Nat
deriving DecidableEq, Repr

namespace Promise

/-- The member `set_value(value)`: throws `no_state` on a promise without shared state and
`promise_already_satisfied` when the shared state is no longer pending; otherwise stores
the value. -/
def set_value (p : Promise) (value : Completion) (shared : List SharedState) :
    Except future_errc (List SharedState) :=
  match p.state with
  | Option.none => Except.error future_errc.no_state
  | some i =>
    match shared[i]? with
    | Option.none => Except.error future_errc.no_state
    | some SharedState.pending => Except.ok (shared.set i (SharedState.ready value))
    | some _ => Except.error future_errc.promise_already_satisfied

/-- What happens to the shared state of a promise that is destroyed or assigned over: a
state still pending becomes broken, any other is left as it is. -/
def abandon (p : Promise) (shared : List SharedState) : List SharedState :=
  match p.state with
  | Option.none => shared
  | some i => if shared[i]? = some SharedState.pending then shared.set i SharedState.broken
    else shared

/-- The member `get_future()` of a promise whose future has not been taken yet. -/
def get_future (p : Promise) : Future :=
  ⟨p.state⟩

end Promise

namespace Slot

variable {IntoT T : Type}

/-- Lines 28-29 of `Slot::enqueue`, under the lock:
`if (data) data->first.set_value(Completion::Preempted);`. Only the shared states can
change; a throw leaves everything as it was. -/
def preempt (slot : Slot) (h : Heap T) : Except future_errc (Heap T) :=
  match h.mutexes slot.data with
  | Option.none => Except.ok h
  | some (promise, _) =>
    match promise.set_value Completion.Preempted h.shared with
    | Except.error e => Except.error e
    | Except.ok shared => Except.ok ⟨shared, h.mutexes⟩

/-- Lines 31-32 of `Slot::enqueue`, under the lock: a new promise (a new shared state,
pending) and the command built from the arguments are assigned to the cell, which
releases the promise stored before; the future of the new promise is returned. -/
def store (construct : IntoT → T) (slot : Slot) (t_args : IntoT) (h : Heap T) :
    Future × Heap T :=
  let fresh : Promise := ⟨some h.shared.length⟩
  let shared := h.shared ++ [SharedState.pending]
  let released :=
    match h.mutexes slot.data with
    | Option.none => shared
    | some (old, _) => old.abandon shared
  (fresh.get_future, ⟨released, Function.update h.mutexes slot.data (some (fresh, construct t_args))⟩)

/-- The member `enqueue(t_args...)`. Taking the lock makes the body one atomic step on
the heap; `construct` is the constructor `T{t_args...}`. -/
def enqueue (construct : IntoT → T) (slot : Slot) (t_args : IntoT) (h : Heap T) :
    Except future_errc (Future × Heap T) :=
  match slot.preempt h with
  | Except.error e => Except.error e
  | Except.ok h1 => Except.ok (store construct slot t_args h1)

end Slot

/-! ### Heaps used as concrete inputs -/

namespace Slot

/-- One cell, at address 0, holding command `7` with a promise that is still pending. -/
def pendingHeap : Heap Nat :=
  ⟨[SharedState.pending], fun a => if a = 0 then some (⟨some 0⟩, 7) else Option.none⟩

/-- One cell, at address 0, still holding command `7` although its promise has already been
resolved with `Completed`: a consumer signalled completion without emptying the cell. -/
def resolvedHeap : Heap Nat :=
  ⟨[SharedState.ready Completion.Completed],
    fun a => if a = 0 then some (⟨some 0⟩, 7) else Option.none⟩

/-- A heap without any shared state, every cell empty: a slot that has just been made. -/
def emptyHeap : Heap Nat :=
  ⟨[], fun _ => Option.none⟩

end Slot

/-! ## `Entangled` and `CompletionGuard` -/

/-- The types `std::true_type` and `std::false_type`, as arguments of a template. -/
inductive bool_constant where
  | true_type
  | false_type
deriving DecidableEq, Repr

/-- The static member `value` of `std::true_type` and `std::false_type`. -/
def bool_constant.value : bool_constant → Bool
  | bool_constant.true_type => true
  | bool_constant.false_type => false

/-- The enumeration `std::future_status`. -/
inductive future_status where
  | ready
  | timeout
  | deferred
deriving DecidableEq, Repr

/-- What a call that can block gives in one state of the shared states: it has not returned
(it stays blocked as long as the state lasts), it has returned a value, or it has thrown. -/
inductive Blocking (α : Type) where
  | blocked
  | returned (value : α)
  | thrown (e : future_errc)
deriving DecidableEq, Repr

namespace Future

/-- The member `get()`: waits while the shared state is pending, returns the stored value,
throws `broken_promise` on an abandoned state and `no_state` on a future without shared
state. -/
def get (f : Future) (shared : List SharedState) : Blocking Completion :=
  match f.state with
  | Option.none => Blocking.thrown future_errc.no_state
  | some i =>
    match shared[i]? with
    | Option.none => Blocking.thrown future_errc.no_state
    | some SharedState.pending => Blocking.blocked
    | some (SharedState.ready value) => Blocking.returned value
    | some SharedState.broken => Blocking.thrown future_errc.broken_promise

/-- The member `wait_for(std::chrono::seconds{0})`: `timeout` while the shared state is
pending, `ready` once it holds a value or was abandoned; a future made by a promise is never
`deferred`. On a future without shared state it throws `no_state`. -/
def wait_for (f : Future) (shared : List SharedState) : Except future_errc future_status :=
  match f.state with
  | Option.none => Except.error future_errc.no_state
  | some i =>
    match shared[i]? with
    | Option.none => Except.error future_errc.no_state
    | some SharedState.pending => Except.ok future_status.timeout
    | some _ => Except.ok future_status.ready

end Future

/-- The class `Entangled<Now, Later, Strict>` with `Later = Completion`, the only type the
sources use it with: its data members `now` and `later`. `Strict` defaults to
`std::true_type`. -/
structure Entangled (Now : Type) (Strict : bool_constant := bool_constant.true_type) where
  now : Now
  later : Future

namespace Entangled

variable {Now : Type} {Strict : bool_constant}

/-- The template parameter `Strict` of a pair. -/
def mode (_e : Entangled Now Strict) : bool_constant :=
  Strict

/-- The condition of the `std::enable_if` in the return type of `unsafe_get<T>`:
`std::is_same<T, Strict>::value && !T::value`. -/
def unsafe_get_enabled (Strict T : bool_constant) : Bool :=
  decide (T = Strict) && !T.value

/-- The member `unsafe_get<T>() &&`, which exists only when its `enable_if` condition holds:
the two members are handed out without waiting. -/
def unsafe_get (e : Entangled Now Strict) (T : bool_constant)
    (_enabled : unsafe_get_enabled Strict T = true) : Now × Future :=
  (e.now, e.later)

/-- The member `get() &&`: `{ std::move(now), std::move(later).get() }`; the pair is built
once `later.get()` has returned. -/
def get (e : Entangled Now Strict) (shared : List SharedState) : Blocking (Now × Completion) :=
  match e.later.get shared with
  | Blocking.blocked => Blocking.blocked
  | Blocking.returned value => Blocking.returned (e.now, value)
  | Blocking.thrown err => Blocking.thrown err

/-- The member `status() const`: `later.wait_for(std::chrono::seconds{0})`. A `const` member
calling a `const` member: the result comes with the object and the shared states as the call
leaves them. -/
def status (e : Entangled Now Strict) (shared : List SharedState) :
    Except future_errc future_status × (Entangled Now Strict × List SharedState) :=
  (e.later.wait_for shared, (e, shared))

end Entangled

/-- The defaulted move constructor `Slot(Slot&&)`: it moves the `std::reference_wrapper`
member, which copies the reference. The result is the slot constructed and the slot left
behind. -/
def Slot.move (s : Slot) : Slot × Slot :=
  (⟨s.data⟩, ⟨s.data⟩)

/-- The class `CompletionGuard<T>`: its data member `slot`. -/
structure CompletionGuard where
  slot : Slot
deriving DecidableEq, Repr

namespace CompletionGuard

variable {IntoT T : Type}

/-- The member `enqueue(t_args...) &&`:
`return { CompletionGuard<T>{ std::move(slot) }, slot.enqueue(t_args...) };`. The elements of
the braced list are evaluated in order: the new guard is built from the moved slot first,
then `enqueue` is called on the member `slot` left behind. -/
def enqueue (construct : IntoT → T) (g : CompletionGuard) (t_args : IntoT) (h : Heap T) :
    Except future_errc (Entangled CompletionGuard × Heap T) :=
  let moved := g.slot.move
  let now : CompletionGuard := ⟨moved.1⟩
  match Slot.enqueue construct moved.2 t_args h with
  | Except.error e => Except.error e
  | Except.ok (later, h2) => Except.ok (⟨now, later⟩, h2)

/-- What the specification says `CompletionGuard.enqueue` is: `Slot.enqueue` on the slot of
the guard, its future handed back together with the guard. -/
def enqueueAsSlot (construct : IntoT → T) (g : CompletionGuard) (t_args : IntoT) (h : Heap T) :
    Except future_errc (Entangled CompletionGuard × Heap T) :=
  match Slot.enqueue construct g.slot t_args h with
  | Except.error e => Except.error e
  | Except.ok (later, h2) => Except.ok (⟨g, later⟩, h2)

end CompletionGuard

/-! ## The consumer and the runs of one slot -/

namespace Consumer

variable {T : Type}

/-- Modelled from the spec: the consumer-side collaborator of the slot, which is not part of
the sources. It "is expected to take ownership of the pending command": under the lock the
pair is moved out of the cell, which is left empty; on an empty cell nothing is taken. -/
def take (slot : Slot) (h : Heap T) : Option (Promise × T) × Heap T :=
  match h.mutexes slot.data with
  | Option.none => (Option.none, h)
  | some command => (some command, ⟨h.shared, Function.update h.mutexes slot.data Option.none⟩)

/-- Modelled from the spec: the consumer-side collaborator of the slot, which is not part of
the sources. It is expected to "eventually resolve its promise with `Completed`": the
promise of a command taken before gets `set_value(Completion::Completed)`. -/
def complete (promise : Promise) (shared : List SharedState) :
    Except future_errc (List SharedState) :=
  promise.set_value Completion.Completed shared

end Consumer

namespace Run

variable {IntoT T : Type}

/-- The state of a run of one slot: the heap, the commands the consumer has taken and not
completed yet, and the signals delivered so far, oldest first, each with the index of the
shared state it was delivered to. -/
structure State (T : Type) where
  heap : Heap T
  held : List (Promise × T)
  signals : List (Nat × Completion)

/-- The steps of a run: the producer enqueues a command, the consumer takes the pending
command out of the cell, the consumer completes the `k`-th command it holds. -/
inductive Step (IntoT : Type) where
  | enqueue (t_args : IntoT)
  | take
  | complete (k : Nat)

/-- The signals a step delivers, read off the shared states: the shared states that were
pending before the step and hold a value after it. -/
def delivered (before after : List SharedState) : List (Nat × Completion) :=
  (List.range before.length).filterMap (fun i =>
    match before[i]?, after[i]? with
    | some SharedState.pending, some (SharedState.ready value) => some (i, value)
    | _, _ => Option.none)

/-- What a step does to the heap and to the commands held by the consumer. -/
def effect (construct : IntoT → T) (slot : Slot) (heap : Heap T) (held : List (Promise × T)) :
    Step IntoT → Except future_errc (Heap T × List (Promise × T))
  | Step.enqueue t_args =>
    match Slot.enqueue construct slot t_args heap with
    | Except.error e => Except.error e
    | Except.ok (_, h2) => Except.ok (h2, held)
  | Step.take =>
    Except.ok ((Consumer.take slot heap).2, held ++ (Consumer.take slot heap).1.toList)
  | Step.complete k =>
    match held[k]? with
    | Option.none => Except.ok (heap, held)
    | some (promise, _) =>
      match Consumer.complete promise heap.shared with
      | Except.error e => Except.error e
      | Except.ok shared => Except.ok (⟨shared, heap.mutexes⟩, held.eraseIdx k)

/-- One step of a run; a step that throws ends the run with the error. -/
def step (construct : IntoT → T) (slot : Slot) (s : State T) (st : Step IntoT) :
    Except future_errc (State T) :=
  match effect construct slot s.heap s.held st with
  | Except.error e => Except.error e
  | Except.ok (h2, held2) =>
    Except.ok ⟨h2, held2, s.signals ++ delivered s.heap.shared h2.shared⟩

/-- A run: the steps made one after the other. -/
def exec (construct : IntoT → T) (slot : Slot) : List (Step IntoT) → State T →
    Except future_errc (State T)
  | [], s => Except.ok s
  | st :: rest, s =>
    match step construct slot s st with
    | Except.error e => Except.error e
    | Except.ok s2 => exec construct slot rest s2

/-- The start of a run: a channel that has just been made, no shared state allocated, every
cell empty, nothing held, nothing signalled. -/
def init : State T :=
  ⟨⟨[], fun _ => Option.none⟩, [], []⟩

/-- The number of enqueue steps of a run: the number of commands enqueued. -/
def enqueues : List (Step IntoT) → Nat
  | [] => 0
  | Step.enqueue _ :: rest => enqueues rest + 1
  | Step.take :: rest => enqueues rest
  | Step.complete _ :: rest => enqueues rest

/-- The number of signals delivered to shared state `i`. -/
def signalCount (s : State T) (i : Nat) : Nat :=
  (s.signals.map Prod.fst).count i

/-- The promise stored in a cell, if any. -/
def cellOwner (cell : Option (Promise × T)) : List Promise :=
  match cell with
  | Option.none => []
  | some (promise, _) => [promise]

/-- The promises of the commands that have not been retired: the one in the cell, if any,
and those of the commands held by the consumer. -/
def owners (slot : Slot) (heap : Heap T) (held : List (Promise × T)) : List Promise :=
  cellOwner (heap.mutexes slot.data) ++ held.map Prod.fst

/-- The invariant of a run on the heap and the commands held: the promises not retired are
distinct and pending, every pending shared state belongs to one of them, the promise in the
cell is the one allocated last, and no shared state is broken. -/
def HeapInv (slot : Slot) (heap : Heap T) (held : List (Promise × T)) : Prop :=
  (owners slot heap held).Nodup
  ∧ (∀ p ∈ owners slot heap held, ∃ i, p = ⟨some i⟩ ∧ heap.shared[i]? = some SharedState.pending)
  ∧ (∀ i : Nat, heap.shared[i]? = some SharedState.pending →
      (⟨some i⟩ : Promise) ∈ owners slot heap held)
  ∧ (∀ p cmd, heap.mutexes slot.data = some (p, cmd) →
      p = ⟨some (heap.shared.length - 1)⟩)
  ∧ (∀ i : Nat, heap.shared[i]? ≠ some SharedState.broken)

/-- The invariant of a run on the signals: no shared state got two signals, and the signals
are the values the shared states hold. -/
def SigInv (shared : List SharedState) (signals : List (Nat × Completion)) : Prop :=
  (signals.map Prod.fst).Nodup
  ∧ (∀ (i : Nat) (v : Completion), (i, v) ∈ signals ↔ shared[i]? = some (SharedState.ready v))

/-- What every step does to the shared states: a value once stored stays, and a shared state
allocated by the step holds no value. -/
def Grows (before after : List SharedState) : Prop :=
  (∀ (i : Nat) (v : Completion),
      before[i]? = some (SharedState.ready v) → after[i]? = some (SharedState.ready v))
  ∧ (∀ (i : Nat) (v : Completion), before.length ≤ i → after[i]? ≠ some (SharedState.ready v))

/-- The run `enqueue(1)`, take, `enqueue(2)`, `enqueue(3)`. -/
def overtakingRun : List (Step Nat) :=
  [Step.enqueue 1, Step.take, Step.enqueue 2, Step.enqueue 3]

end Run

/-! ## `boost::dynamic_bitset<>` and the store over it -/

/-- A `boost::dynamic_bitset<>`: its number of bits `size` and the bits, least significant
first, as a number; the bits from `size` on are zero. -/
structure dynamic_bitset where
  size : Nat
  bits : Nat
deriving DecidableEq, Repr

namespace dynamic_bitset

/-- The constructor `dynamic_bitset(num_bits, value)`: the low `num_bits` bits of `value`. -/
def ofValue (num_bits value : Nat) : dynamic_bitset :=
  ⟨num_bits, value % 2 ^ num_bits⟩

/-- The member `none()`: no bit is set. -/
def none (b : dynamic_bitset) : Bool :=
  b.bits == 0

/-- The operator `~`: a copy with every one of its `size` bits flipped. -/
def flip (b : dynamic_bitset) : dynamic_bitset :=
  ⟨b.size, (2 ^ b.size - 1 - b.bits % 2 ^ b.size) % 2 ^ b.size⟩

/-- The operator `&=`. It requires `size() == rhs.size()` and asserts it: with operands of
different sizes the assertion fails and there is no result. -/
def and_assign (b rhs : dynamic_bitset) : Option dynamic_bitset :=
  if b.size = rhs.size then some ⟨b.size, b.bits &&& rhs.bits⟩ else Option.none

/-- The operator `&=` when the assertion is compiled out, for bitsets that fit one storage
block: the blocks are and-ed, the size of the left operand stays. -/
def and_assign_unchecked (b rhs : dynamic_bitset) : dynamic_bitset :=
  ⟨b.size, b.bits &&& rhs.bits⟩

end dynamic_bitset

/-- The loop `for (auto m = mask; m; m >>= 1) ++max_bit;` of the literal operator `_db`:
the number of iterations. The fuel bounds the iterations; 64 are enough for an
`unsigned long long`. -/
def max_bit : Nat → Nat → Nat
  | 0, _ => 0
  | fuel + 1, m => if m = 0 then 0 else max_bit fuel (m >>> 1) + 1

/-- The literal operator `_db` of `test/Calibration.cpp`:
`boost::dynamic_bitset<>{max_bit, mask}`. -/
def operator_db (mask : Nat) : dynamic_bitset :=
  dynamic_bitset.ofValue (max_bit 64 mask) mask

/-- The class `Calibration<Bitset, Params>` with `Bitset = boost::dynamic_bitset<>`: its data
member `parameter_groups`. -/
structure DynCalibration (Params : Type) where
  parameter_groups : List (dynamic_bitset × Params)
deriving DecidableEq, Repr

namespace DynCalibration

variable {Params : Type}

/-- A default-constructed store: the vector is empty. -/
def fresh : DynCalibration Params :=
  ⟨[]⟩

/-- The range-for loop of `set`, `group.first &= ~target_motors` for every group in turn;
there is no result when the assertion of `&=` fails on a group. -/
def strip (negated : dynamic_bitset) :
    List (dynamic_bitset × Params) → Option (List (dynamic_bitset × Params))
  | [] => some []
  | group :: rest =>
    match group.1.and_assign negated with
    | Option.none => Option.none
    | some first =>
      match strip negated rest with
      | Option.none => Option.none
      | some stripped => some ((first, group.2) :: stripped)

/-- The member `set(target_motors, new_parameters)` over dynamic bitsets: the same body as
over `std::bitset<N>`, with the `&=` of `boost::dynamic_bitset<>`. -/
def set (c : DynCalibration Params) (target_motors : dynamic_bitset) (new_parameters : Params) :
    Option (DynCalibration Params) :=
  if target_motors.none then some c
  else
    match strip target_motors.flip c.parameter_groups with
    | Option.none => Option.none
    | some stripped =>
      some ⟨stripped.filter (fun group => !group.1.none) ++ [(target_motors, new_parameters)]⟩

/-- The member `set` when the assertion of `&=` is compiled out. -/
def set_unchecked (c : DynCalibration Params) (target_motors : dynamic_bitset)
    (new_parameters : Params) : DynCalibration Params :=
  if target_motors.none then c
  else
    ⟨(c.parameter_groups.map
        (fun group => (group.1.and_assign_unchecked target_motors.flip, group.2))).filter
        (fun group => !group.1.none) ++ [(target_motors, new_parameters)]⟩

/-- The member `get() const&`. -/
def get (c : DynCalibration Params) : List (dynamic_bitset × Params) :=
  c.parameter_groups

/-- A sequence of `set` calls made in list order; no result once a call has none. -/
def setAll (c : DynCalibration Params) :
    List (dynamic_bitset × Params) → Option (DynCalibration Params)
  | [] => some c
  | call :: later =>
    match c.set call.1 call.2 with
    | Option.none => Option.none
    | some next => setAll next later

/-- A sequence of `set` calls with the assertion compiled out. -/
def setAll_unchecked (c : DynCalibration Params) (calls : List (dynamic_bitset × Params)) :
    DynCalibration Params :=
  calls.foldl (fun s call => s.set_unchecked call.1 call.2) c

/-- The calls of `TEST(Calibration, disjoint_targets_)`. -/
def disjoint_targets_calls : List (dynamic_bitset × Int) :=
  [(operator_db 0b10000, 0), (operator_db 0b00010, 3), (operator_db 0b01000, 1),
    (operator_db 0b00100, 2), (operator_db 0b000001, 4)]

/-- The groups `TEST(Calibration, disjoint_targets_)` expects, in any order. -/
def disjoint_targets_expected : List (dynamic_bitset × Int) :=
  [(operator_db 0b10000, 0), (operator_db 0b01000, 1), (operator_db 0b00100, 2),
    (operator_db 0b00010, 3), (operator_db 0b000001, 4)]

end DynCalibration

/-! ## Bit-level facts about `Bitset` -/

namespace Bitset

variable {N : Nat}

theorem ext_test {a b : Bitset N} (h : ∀ t, a.test t = b.test t) : a = b := by
  cases a with
  | mk x hx =>
    cases b with
    | mk y hy =>
      have hxy : x = y := Nat.eq_of_testBit_eq h
      subst hxy
      rfl

theorem test_of_le (b : Bitset N) {t : Nat} (h : N ≤ t) : b.test t = false := by
  unfold test
  exact Nat.testBit_lt_two_pow (lt_of_lt_of_le b.lt (Nat.pow_le_pow_right (by decide) h))

theorem lt_of_test {b : Bitset N} {t : Nat} (h : b.test t = true) : t < N := by
  by_contra hc
  rw [test_of_le b (Nat.le_of_not_lt hc)] at h
  exact Bool.false_ne_true h

theorem test_and (a b : Bitset N) (t : Nat) :
    (a.and b).test t = (a.test t && b.test t) := by
  simp [test, Bitset.and, Nat.testBit_and]

@[simp] theorem test_or (a b : Bitset N) (t : Nat) :
    (a.or b).test t = (a.test t || b.test t) := by
  simp [test, Bitset.or, Nat.testBit_or]

theorem test_flip (b : Bitset N) (t : Nat) :
    b.flip.test t = (decide (t < N) && !b.test t) := by
  unfold test flip
  have h : 2 ^ N - 1 - b.bits = 2 ^ N - (b.bits + 1) := by omega
  simp only [h]
  exact Nat.testBit_two_pow_sub_succ b.lt t

/-- The expression `g & ~m` is the set difference of `g` and `m`. -/
@[simp] theorem test_and_flip (g m : Bitset N) (t : Nat) :
    (g.and m.flip).test t = (g.test t && !m.test t) := by
  rw [test_and, test_flip]
  cases hg : g.test t with
  | false => simp
  | true => simp [lt_of_test hg]

@[simp] theorem test_ofNat_zero (t : Nat) : (ofNat N 0).test t = false := by
  simp [test, ofNat]

theorem none_iff (b : Bitset N) : b.none = true ↔ ∀ t, b.test t = false := by
  constructor
  · intro h t
    have h0 : b.bits = 0 := by simpa [none] using h
    simp [test, h0]
  · intro h
    have h0 : b.bits = 0 := Nat.eq_of_testBit_eq (by intro i; simpa [test] using h i)
    simp [none, h0]

theorem none_eq_false_iff (b : Bitset N) : b.none = false ↔ ∃ t, b.test t = true := by
  constructor
  · intro h
    by_contra hc
    have hall : ∀ t, b.test t = false := by
      intro t
      cases ht : b.test t with
      | false => rfl
      | true => exact absurd ⟨t, ht⟩ hc
    rw [(none_iff b).mpr hall] at h
    exact Bool.noConfusion h
  · rintro ⟨t, ht⟩
    cases hn : b.none with
    | false => rfl
    | true =>
      rw [(none_iff b).mp hn t] at ht
      exact Bool.noConfusion ht

theorem test_eq_false_of_none {b : Bitset N} (h : b.none = true) (t : Nat) :
    b.test t = false :=
  (none_iff b).mp h t

end Bitset

/-! ## Facts about `Calibration.set` shared by the properties below -/

namespace Calibration

variable {N : Nat} {Params : Type}

theorem filter_map_eq_strippedGroups (m : Bitset N) (groups : List (Bitset N × Params)) :
    (groups.map (fun group => (group.1.and m.flip, group.2))).filter
      (fun group => !group.1.none) = strippedGroups m groups := by
  induction groups with
  | nil => rfl
  | cons g rest ih =>
    simp only [List.map_cons, strippedGroups]
    cases hg : (g.1.and m.flip).none with
    | true => simp [List.filter_cons, hg, ih]
    | false => simp [List.filter_cons, hg, ih]

theorem set_of_none (c : Calibration N Params) {m : Bitset N} (v : Params)
    (h : m.none = true) : c.set m v = c := by
  simp [set, h]

theorem set_of_some (c : Calibration N Params) {m : Bitset N} (v : Params)
    (h : m.none = false) :
    c.set m v = ⟨strippedGroups m c.parameter_groups ++ [(m, v)]⟩ := by
  simp only [set, h, Bool.false_eq_true, if_false]
  rw [filter_map_eq_strippedGroups]

theorem setAll_snoc (c : Calibration N Params) (calls : List (Bitset N × Params))
    (call : Bitset N × Params) :
    c.setAll (calls ++ [call]) = (c.setAll calls).set call.1 call.2 := by
  simp [setAll, List.foldl_append]

theorem test_unionOf (masks : List (Bitset N)) (t : Nat) :
    (unionOf masks).test t = masks.any (fun m => m.test t) := by
  induction masks with
  | nil => simp [unionOf]
  | cons m rest ih => simp [unionOf, ih]

theorem unionOf_snoc_flip (g : Bitset N) (masks : List (Bitset N)) (m : Bitset N) :
    g.and (unionOf (masks ++ [m])).flip = (g.and (unionOf masks).flip).and m.flip := by
  apply Bitset.ext_test
  intro t
  simp only [Bitset.test_and_flip, test_unionOf, List.any_append, List.any_cons, List.any_nil,
    Bool.or_false, Bool.not_or, Bool.and_assoc]

theorem and_flip_zero (g : Bitset N) : g.and (Bitset.ofNat N 0).flip = g := by
  apply Bitset.ext_test
  intro t
  simp

theorem none_and_flip_of_none {g : Bitset N} (m : Bitset N) (h : g.none = true) :
    (g.and m.flip).none = true := by
  rw [Bitset.none_iff] at h ⊢
  intro t
  simp [h t]

theorem residuals_cons (c : Bitset N × Params) (later : List (Bitset N × Params)) :
    residuals (c :: later)
      = if (c.1.and (unionOf (later.map Prod.fst)).flip).none then residuals later
        else (c.1.and (unionOf (later.map Prod.fst)).flip, c.2) :: residuals later :=
  rfl

theorem residuals_nonempty (calls : List (Bitset N × Params)) :
    ∀ g ∈ residuals calls, g.1.none = false := by
  induction calls with
  | nil => intro g hg; simp [residuals] at hg
  | cons c later ih =>
    intro g hg
    simp only [residuals] at hg
    split at hg
    · exact ih g hg
    · rename_i hne
      rcases List.mem_cons.mp hg with h | h
      · subst h
        simpa using hne
      · exact ih g h

theorem strippedGroups_of_none {m : Bitset N} (h : m.none = true)
    (groups : List (Bitset N × Params)) (hne : ∀ g ∈ groups, g.1.none = false) :
    strippedGroups m groups = groups := by
  induction groups with
  | nil => rfl
  | cons g rest ih =>
    have hg : g.1.and m.flip = g.1 := by
      apply Bitset.ext_test
      intro t
      simp [Bitset.test_eq_false_of_none h t]
    have hgn : g.1.none = false := hne g (List.mem_cons_self _ _)
    simp only [strippedGroups, hg, hgn, Bool.false_eq_true, if_false]
    rw [ih (fun x hx => hne x (List.mem_cons_of_mem _ hx))]

theorem residuals_snoc (calls : List (Bitset N × Params)) (call : Bitset N × Params) :
    residuals (calls ++ [call])
      = strippedGroups call.1 (residuals calls) ++ (if call.1.none then [] else [call]) := by
  induction calls with
  | nil =>
    rw [List.nil_append, residuals_cons]
    simp only [residuals, List.map_nil, unionOf, and_flip_zero, strippedGroups]
    cases h : call.1.none <;> simp
  | cons c later ih =>
    rw [List.cons_append, residuals_cons, residuals_cons, List.map_append, List.map_cons,
      List.map_nil, unionOf_snoc_flip, ih]
    cases hr : (c.1.and (unionOf (later.map Prod.fst)).flip).none with
    | true =>
      simp [none_and_flip_of_none call.1 hr]
    | false =>
      simp only [Bool.false_eq_true, if_false, strippedGroups]
      cases hs : ((c.1.and (unionOf (later.map Prod.fst)).flip).and call.1.flip).none with
      | true => simp
      | false => simp

/-- The store left by a sequence of calls on a fresh store is the list of residuals. -/
theorem get_setAll_fresh (calls : List (Bitset N × Params)) :
    ((fresh : Calibration N Params).setAll calls).get = residuals calls := by
  induction calls using List.reverseRecOn with
  | nil => rfl
  | append_singleton calls call ih =>
    rw [setAll_snoc, residuals_snoc]
    cases h : call.1.none with
    | true =>
      rw [set_of_none _ _ h, ih]
      simp [strippedGroups_of_none h _ (residuals_nonempty calls)]
    | false =>
      rw [set_of_some _ _ h]
      simp only [get] at ih
      simp [get, ih]

theorem test_unionOf_of_mem_residuals {calls : List (Bitset N × Params)}
    {g : Bitset N × Params} (hg : g ∈ residuals calls) {t : Nat} (ht : g.1.test t = true) :
    (unionOf (calls.map Prod.fst)).test t = true := by
  induction calls with
  | nil => simp [residuals] at hg
  | cons c later ih =>
    rw [residuals_cons] at hg
    simp only [List.map_cons, unionOf, Bitset.test_or, Bool.or_eq_true]
    split at hg
    · exact Or.inr (ih hg)
    · rcases List.mem_cons.mp hg with h | h
      · subst h
        simp only [Bitset.test_and_flip, Bool.and_eq_true] at ht
        exact Or.inl ht.1
      · exact Or.inr (ih h)

theorem holders_cons (t : Nat) (g : Bitset N × Params) (groups : List (Bitset N × Params)) :
    holders t (g :: groups) = (if g.1.test t then 1 else 0) + holders t groups := by
  unfold holders
  cases h : g.1.test t with
  | true => simp [List.filter_cons, h, Nat.add_comm]
  | false => simp [List.filter_cons, h]

theorem holders_residuals (calls : List (Bitset N × Params)) (t : Nat) :
    holders t (residuals calls)
      = if (unionOf (calls.map Prod.fst)).test t then 1 else 0 := by
  induction calls with
  | nil => simp [residuals, holders, unionOf]
  | cons c later ih =>
    rw [residuals_cons]
    simp only [List.map_cons, unionOf, Bitset.test_or]
    split
    · rename_i hr
      have hrt := Bitset.test_eq_false_of_none hr t
      rw [Bitset.test_and_flip] at hrt
      rw [ih]
      cases hc : c.1.test t <;> cases hu : (unionOf (later.map Prod.fst)).test t <;>
        simp [hc, hu] at hrt ⊢
    · rw [holders_cons, ih, Bitset.test_and_flip]
      cases hc : c.1.test t <;> cases hu : (unionOf (later.map Prod.fst)).test t <;> simp

theorem pairwise_disjoint_residuals (calls : List (Bitset N × Params)) :
    (residuals calls).Pairwise (fun a b => (a.1.and b.1).none = true) := by
  induction calls with
  | nil => simp [residuals]
  | cons c later ih =>
    rw [residuals_cons]
    split
    · exact ih
    · refine List.Pairwise.cons ?_ ih
      intro g hg
      rw [Bitset.none_iff]
      intro t
      rw [Bitset.test_and, Bitset.test_and_flip]
      cases hgt : g.1.test t with
      | false => simp
      | true => simp [test_unionOf_of_mem_residuals hg hgt]

theorem residuals_of_disjoint (calls : List (Bitset N × Params))
    (h : calls.Pairwise (fun a b => (a.1.and b.1).none = true)) :
    residuals calls = calls.filter (fun c => !c.1.none) := by
  induction calls with
  | nil => rfl
  | cons c later ih =>
    rw [List.pairwise_cons] at h
    have hc : c.1.and (unionOf (later.map Prod.fst)).flip = c.1 := by
      apply Bitset.ext_test
      intro t
      rw [Bitset.test_and_flip, test_unionOf]
      cases hct : c.1.test t with
      | false => simp
      | true =>
        have hall : (later.map Prod.fst).any (fun m => m.test t) = false := by
          rw [List.any_eq_false]
          intro m hm
          obtain ⟨b, hb, rfl⟩ := List.mem_map.mp hm
          have hd := Bitset.test_eq_false_of_none (h.1 b hb) t
          rw [Bitset.test_and, hct] at hd
          simpa using hd
        simp [hall]
    rw [residuals_cons, hc, ih h.2]
    cases hn : c.1.none <;> simp [List.filter_cons, hn]

theorem length_residuals_le (calls : List (Bitset N × Params)) :
    (residuals calls).length ≤ (calls.filter (fun c => !c.1.none)).length := by
  induction calls with
  | nil => simp [residuals]
  | cons c later ih =>
    rw [residuals_cons]
    split
    · exact le_trans ih (List.Sublist.length_le
        (List.Sublist.filter _ (List.sublist_cons_self c later)))
    · rename_i hr
      have hcn : c.1.none = false := by
        cases hn : c.1.none with
        | false => rfl
        | true => exact absurd (none_and_flip_of_none _ hn) hr
      simp only [List.filter_cons, hcn, Bool.not_false, if_true, List.length_cons]
      omega

/-- In the list of residuals the groups containing a target carry the value of the last
call whose mask contains it, and there is such a group as soon as one call names the
target. -/
theorem last_write_residuals (calls : List (Bitset N × Params)) (t : Nat)
    (h : ∃ c ∈ calls, c.1.test t = true) :
    ∃ (j : Nat) (c : Bitset N × Params), calls[j]? = some c ∧ c.1.test t = true
      ∧ (∀ (k : Nat) (d : Bitset N × Params), j < k → calls[k]? = some d → d.1.test t = false)
      ∧ (∃ g ∈ residuals calls, g.1.test t = true ∧ g.2 = c.2)
      ∧ (∀ g ∈ residuals calls, g.1.test t = true → g.2 = c.2) := by
  induction calls with
  | nil =>
    obtain ⟨c, hc, _⟩ := h
    simp at hc
  | cons c later ih =>
    by_cases hl : ∃ d ∈ later, d.1.test t = true
    · obtain ⟨j, d, hj, hd, hlast, ⟨g, hg, hgt, hgv⟩, hall⟩ := ih hl
      have hu : (unionOf (later.map Prod.fst)).test t = true :=
        test_unionOf_of_mem_residuals hg hgt
      refine ⟨j + 1, d, by simpa using hj, hd, ?_, ?_, ?_⟩
      · intro k e hk he
        cases k with
        | zero => omega
        | succ k => exact hlast k e (by omega) (by simpa using he)
      · refine ⟨g, ?_, hgt, hgv⟩
        rw [residuals_cons]
        split
        · exact hg
        · exact List.mem_cons_of_mem _ hg
      · intro g2 hg2 hg2t
        rw [residuals_cons] at hg2
        split at hg2
        · exact hall g2 hg2 hg2t
        · rcases List.mem_cons.mp hg2 with h2 | h2
          · subst h2
            simp [hu] at hg2t
          · exact hall g2 h2 hg2t
    · have hnone : ∀ d ∈ later, d.1.test t = false := by
        intro d hd
        cases hdt : d.1.test t with
        | false => rfl
        | true => exact absurd ⟨d, hd, hdt⟩ hl
      have hct : c.1.test t = true := by
        obtain ⟨e, he, het⟩ := h
        rcases List.mem_cons.mp he with h1 | h1
        · subst h1
          exact het
        · rw [hnone e h1] at het
          exact Bool.noConfusion het
      have hu : (unionOf (later.map Prod.fst)).test t = false := by
        rw [test_unionOf, List.any_eq_false]
        intro m hm
        obtain ⟨b, hb, rfl⟩ := List.mem_map.mp hm
        simp [hnone b hb]
      have hrt : (c.1.and (unionOf (later.map Prod.fst)).flip).test t = true := by
        simp [hct, hu]
      have hrn : (c.1.and (unionOf (later.map Prod.fst)).flip).none = false :=
        (Bitset.none_eq_false_iff _).mpr ⟨t, hrt⟩
      refine ⟨0, c, List.getElem?_cons_zero, hct, ?_, ?_, ?_⟩
      · intro k e hk he
        cases k with
        | zero => omega
        | succ k =>
          have hmem : e ∈ later := List.getElem?_mem (by simpa using he)
          exact hnone e hmem
      · rw [residuals_cons, hrn]
        exact ⟨_, List.mem_cons_self _ _, hrt, rfl⟩
      · intro g2 hg2 hg2t
        rw [residuals_cons, hrn] at hg2
        rcases List.mem_cons.mp hg2 with h2 | h2
        · subst h2
          rfl
        · have := test_unionOf_of_mem_residuals h2 hg2t
          rw [hu] at this
          exact Bool.noConfusion this

end Calibration

/-! ## Properties of the Calibration store -/

namespace Calibration

variable {N : Nat} {Params : Type}

/-- C1: last write wins per target. For every sequence of `set` calls on a fresh store and
every target `t` contained in the mask of at least one call, there is a most recent call
`j` whose mask contains `t`, the store returned by `get` has a group containing `t` whose
value is the value of call `j`, and every group containing `t` carries that value. -/
theorem last_write_wins (calls : List (Bitset N × Params)) (t : Nat)
    (h : ∃ c ∈ calls, c.1.test t = true) :
    ∃ (j : Nat) (c : Bitset N × Params), calls[j]? = some c ∧ c.1.test t = true
      ∧ (∀ (k : Nat) (d : Bitset N × Params), j < k → calls[k]? = some d → d.1.test t = false)
      ∧ (∃ g ∈ ((fresh : Calibration N Params).setAll calls).get, g.1.test t = true ∧ g.2 = c.2)
      ∧ (∀ g ∈ ((fresh : Calibration N Params).setAll calls).get,
          g.1.test t = true → g.2 = c.2) := by
  rw [get_setAll_fresh]
  exact last_write_residuals calls t h

/-- Target 2 of the test `override_parameters` is named by both calls; its group carries
the value of the second one. -/
theorem last_write_wins_witness :
    (∃ c ∈ override_parameters_calls, c.1.test 2 = true)
    ∧ ∃ (j : Nat) (c : Bitset 5 × Int), override_parameters_calls[j]? = some c
      ∧ c.1.test 2 = true
      ∧ (∀ (k : Nat) (d : Bitset 5 × Int), j < k → override_parameters_calls[k]? = some d →
          d.1.test 2 = false)
      ∧ (∃ g ∈ ((fresh : Calibration 5 Int).setAll override_parameters_calls).get,
          g.1.test 2 = true ∧ g.2 = c.2)
      ∧ (∀ g ∈ ((fresh : Calibration 5 Int).setAll override_parameters_calls).get,
          g.1.test 2 = true → g.2 = c.2) :=
  ⟨by decide, last_write_wins override_parameters_calls 2 (by decide)⟩

/-- C2: disjointness invariant. In every store reached from the fresh store by a sequence of
`set` calls, the groups at two distinct positions of the sequence returned by `get` have
target sets with an empty intersection. -/
theorem groups_pairwise_disjoint (calls : List (Bitset N × Params)) (i j : Nat)
    (g1 g2 : Bitset N × Params) (hij : i ≠ j)
    (hi : ((fresh : Calibration N Params).setAll calls).get[i]? = some g1)
    (hj : ((fresh : Calibration N Params).setAll calls).get[j]? = some g2) :
    (g1.1.and g2.1).none = true := by
  rw [get_setAll_fresh] at hi hj
  have hp := List.pairwise_iff_getElem.mp (pairwise_disjoint_residuals calls)
  obtain ⟨hil, hie⟩ := List.getElem?_eq_some.mp hi
  obtain ⟨hjl, hje⟩ := List.getElem?_eq_some.mp hj
  rcases Nat.lt_or_gt_of_ne hij with hlt | hgt
  · have := hp i j hil hjl hlt
    rwa [hie, hje] at this
  · have := hp j i hjl hil hgt
    rw [hie, hje, Bitset.none_iff] at this
    rw [Bitset.none_iff]
    intro t
    have ht := this t
    rw [Bitset.test_and] at ht ⊢
    rwa [Bool.and_comm]

/-- The two groups left by the test `no_dangling_parameters` are disjoint. -/
theorem groups_pairwise_disjoint_witness :
    (1 ≠ 0)
    ∧ ((fresh : Calibration 5 Int).setAll no_dangling_parameters_calls).get[1]?
        = some (Bitset.ofNat 5 0b11000, 2)
    ∧ ((fresh : Calibration 5 Int).setAll no_dangling_parameters_calls).get[0]?
        = some (Bitset.ofNat 5 0b00111, 1)
    ∧ ((Bitset.ofNat 5 0b11000).and (Bitset.ofNat 5 0b00111)).none = true :=
  ⟨by decide, by decide, by decide,
    groups_pairwise_disjoint no_dangling_parameters_calls 1 0 (Bitset.ofNat 5 0b11000, 2)
      (Bitset.ofNat 5 0b00111, 1) (by decide) (by decide) (by decide)⟩

/-- C3: no empty group is ever observable. In every store reached from the fresh store by a
sequence of `set` calls every group has a non-empty target set, and the calls
`set(10101,0)`, `set(00111,1)`, `set(11000,2)` leave exactly the groups `(00111,1)` and
`(11000,2)`: the group of the first call is removed, not kept with an all-zero mask. -/
theorem no_empty_group (calls : List (Bitset N × Params)) :
    (∀ g ∈ ((fresh : Calibration N Params).setAll calls).get, g.1.none = false)
    ∧ ((fresh : Calibration 5 Int).setAll no_dangling_parameters_calls).get
        = [(Bitset.ofNat 5 0b00111, 1), (Bitset.ofNat 5 0b11000, 2)] := by
  refine ⟨?_, by decide⟩
  rw [get_setAll_fresh]
  exact residuals_nonempty calls

/-- C4 as stated fails: the single call `set(00000, 7)` has pairwise-disjoint masks, but the
store stays empty, so the final groups are not the list of calls. -/
theorem disjoint_calls_counterexample :
    List.Pairwise (fun a b : Bitset 5 × Int => (a.1.and b.1).none = true)
        [(Bitset.ofNat 5 0, 7)]
    ∧ ((fresh : Calibration 5 Int).setAll [(Bitset.ofNat 5 0, 7)]).get = []
    ∧ ¬ List.Perm ((fresh : Calibration 5 Int).setAll [(Bitset.ofNat 5 0, 7)]).get
        [(Bitset.ofNat 5 0, 7)] := by
  refine ⟨by simp, by decide, ?_⟩
  intro hperm
  have hlen := hperm.length_eq
  have hget : ((fresh : Calibration 5 Int).setAll [(Bitset.ofNat 5 0, 7)]).get = [] := by decide
  rw [hget] at hlen
  simp at hlen

/-- C4, amended: for every sequence of `set` calls with pairwise-disjoint masks on a fresh
store, the final groups are, in any order, exactly the pairs `(mask_i, v_i)` of the calls
whose mask is not empty; when no mask is empty they are exactly the list of calls. -/
theorem disjoint_calls_groups (calls : List (Bitset N × Params))
    (h : calls.Pairwise (fun a b => (a.1.and b.1).none = true)) :
    List.Perm ((fresh : Calibration N Params).setAll calls).get
        (calls.filter (fun c => !c.1.none))
    ∧ ((∀ c ∈ calls, c.1.none = false) →
        List.Perm ((fresh : Calibration N Params).setAll calls).get calls) := by
  rw [get_setAll_fresh, residuals_of_disjoint calls h]
  refine ⟨List.Perm.refl _, ?_⟩
  intro hne
  have hall : calls.filter (fun c => !c.1.none) = calls := by
    rw [List.filter_eq_self]
    intro c hc
    simp [hne c hc]
  rw [hall]

/-- The calls of the test `disjoint_targets` are pairwise disjoint and leave the four
expected groups. -/
theorem disjoint_calls_groups_witness :
    disjoint_targets_calls.Pairwise (fun a b => (a.1.and b.1).none = true)
    ∧ (List.Perm ((fresh : Calibration 5 Int).setAll disjoint_targets_calls).get
        (disjoint_targets_calls.filter (fun c => !c.1.none))
      ∧ ((∀ c ∈ disjoint_targets_calls, c.1.none = false) →
        List.Perm ((fresh : Calibration 5 Int).setAll disjoint_targets_calls).get
          disjoint_targets_calls))
    ∧ List.Perm ((fresh : Calibration 5 Int).setAll disjoint_targets_calls).get
        [(Bitset.ofNat 5 0b10000, 0), (Bitset.ofNat 5 0b01000, 1), (Bitset.ofNat 5 0b00100, 2),
          (Bitset.ofNat 5 0b00010, 3)] :=
  ⟨by decide, disjoint_calls_groups disjoint_targets_calls (by decide), by decide⟩

/-- C5: single step of an overlapping write. For every store `s` and every non-empty mask
`m`, the store after `set(m, v)` is the list obtained from `s` by replacing each group
`(g, p)` with `(g AND NOT m, p)`, deleting the groups whose stripped target set is empty
while the others keep their relative order, and appending `(m, v)` as the last group. -/
theorem set_single_step (s : Calibration N Params) (m : Bitset N) (v : Params)
    (h : m.none = false) :
    (s.set m v).get = strippedGroups m s.get ++ [(m, v)] := by
  rw [set_of_some s v h]
  rfl

/-- The second call of the test `override_parameters`: `set(10101,0)` then `set(00111,1)`
gives `[(10000,0),(00111,1)]`. -/
theorem set_single_step_witness :
    (Bitset.ofNat 5 0b00111).none = false
    ∧ (((fresh : Calibration 5 Int).set (Bitset.ofNat 5 0b10101) 0).set
          (Bitset.ofNat 5 0b00111) 1).get
        = strippedGroups (Bitset.ofNat 5 0b00111)
            ((fresh : Calibration 5 Int).set (Bitset.ofNat 5 0b10101) 0).get
          ++ [(Bitset.ofNat 5 0b00111, 1)]
    ∧ (((fresh : Calibration 5 Int).set (Bitset.ofNat 5 0b10101) 0).set
          (Bitset.ofNat 5 0b00111) 1).get
        = [(Bitset.ofNat 5 0b10000, 0), (Bitset.ofNat 5 0b00111, 1)] :=
  ⟨by decide,
    set_single_step ((fresh : Calibration 5 Int).set (Bitset.ofNat 5 0b10101) 0)
      (Bitset.ofNat 5 0b00111) 1 (by decide),
    by decide⟩

/-- C6: `set` with an all-zero target set never changes the store. For every store `s` and
every value `v`, the groups returned by `get` after `set(empty, v)` are the same groups in
the same order as before, so no group carrying `v` is added. -/
theorem set_empty_mask (s : Calibration N Params) (m : Bitset N) (v : Params)
    (h : m.none = true) :
    (s.set m v).get = s.get ∧ s.set m v = s := by
  rw [set_of_none s v h]
  exact ⟨rfl, rfl⟩

/-- Adding `set(00000, 9)` after the calls of the test `override_parameters` leaves its two
groups. -/
theorem set_empty_mask_witness :
    (Bitset.ofNat 5 0).none = true
    ∧ ((((fresh : Calibration 5 Int).setAll override_parameters_calls).set
            (Bitset.ofNat 5 0) 9).get
          = ((fresh : Calibration 5 Int).setAll override_parameters_calls).get
        ∧ ((fresh : Calibration 5 Int).setAll override_parameters_calls).set
            (Bitset.ofNat 5 0) 9
          = (fresh : Calibration 5 Int).setAll override_parameters_calls) :=
  ⟨by decide,
    set_empty_mask ((fresh : Calibration 5 Int).setAll override_parameters_calls)
      (Bitset.ofNat 5 0) 9 (by decide)⟩

/-- C7: coverage. After any sequence of `set` calls on a fresh store, a target contained in
the mask of some call is contained in the target set of exactly one group, a target
contained in a group is contained in the mask of some call, and the union of the target
sets of the groups is the union of the masks of the calls. -/
theorem coverage (calls : List (Bitset N × Params)) (t : Nat) :
    ((∃ c ∈ calls, c.1.test t = true) →
        holders t ((fresh : Calibration N Params).setAll calls).get = 1)
    ∧ ((∃ g ∈ ((fresh : Calibration N Params).setAll calls).get, g.1.test t = true) →
        ∃ c ∈ calls, c.1.test t = true)
    ∧ unionOf ((((fresh : Calibration N Params).setAll calls).get).map Prod.fst)
        = unionOf (calls.map Prod.fst) := by
  rw [get_setAll_fresh]
  have hmem : ∀ u : Nat, (unionOf (calls.map Prod.fst)).test u = true ↔
      ∃ c ∈ calls, c.1.test u = true := by
    intro u
    rw [test_unionOf, List.any_eq_true]
    constructor
    · rintro ⟨m, hm, hmt⟩
      obtain ⟨c, hc, rfl⟩ := List.mem_map.mp hm
      exact ⟨c, hc, hmt⟩
    · rintro ⟨c, hc, hct⟩
      exact ⟨c.1, List.mem_map.mpr ⟨c, hc, rfl⟩, hct⟩
  refine ⟨?_, ?_, ?_⟩
  · intro h
    rw [holders_residuals, (hmem t).mpr h]
    rfl
  · rintro ⟨g, hg, hgt⟩
    exact (hmem t).mp (test_unionOf_of_mem_residuals hg hgt)
  · apply Bitset.ext_test
    intro u
    cases hu : (unionOf (calls.map Prod.fst)).test u with
    | true =>
      have h1 : holders u (residuals calls) = 1 := by
        rw [holders_residuals, hu]
        rfl
      have hpos : 0 < ((residuals calls).filter (fun group => group.1.test u)).length := by
        unfold holders at h1
        omega
      obtain ⟨g, hg⟩ := List.exists_mem_of_length_pos hpos
      rw [List.mem_filter] at hg
      rw [test_unionOf, List.any_eq_true]
      exact ⟨g.1, List.mem_map.mpr ⟨g, hg.1, rfl⟩, hg.2⟩
    | false =>
      rw [test_unionOf, List.any_eq_false]
      intro m hm
      obtain ⟨g, hg, rfl⟩ := List.mem_map.mp hm
      cases hgt : g.1.test u with
      | false => simp
      | true =>
        have := test_unionOf_of_mem_residuals hg hgt
        rw [hu] at this
        exact Bool.noConfusion this

/-- C8: groups are never merged across separate calls. For every sequence of `set` calls on
a fresh store the final store is the list, in call order, of `(mask_k` minus the union of
the masks of all later calls`, v_k)` over the calls whose residual set is not empty. The
number of groups never exceeds the number of calls with a non-empty mask, and two calls
with equal values, `set(00001,5)` and `set(00010,5)`, leave two groups. -/
theorem groups_never_merged (calls : List (Bitset N × Params)) :
    ((fresh : Calibration N Params).setAll calls).get = residuals calls
    ∧ (((fresh : Calibration N Params).setAll calls).get).length
        ≤ (calls.filter (fun c => !c.1.none)).length
    ∧ ((fresh : Calibration 5 Int).setAll
          [(Bitset.ofNat 5 0b00001, 5), (Bitset.ofNat 5 0b00010, 5)]).get
        = [(Bitset.ofNat 5 0b00001, 5), (Bitset.ofNat 5 0b00010, 5)] := by
  refine ⟨get_setAll_fresh calls, ?_, by decide⟩
  rw [get_setAll_fresh]
  exact length_residuals_le calls

end Calibration

/-! ## Properties of the command slot -/

namespace Slot

variable {IntoT T : Type}

theorem preempt_of_empty (slot : Slot) (h : Heap T) (hcell : h.mutexes slot.data = Option.none) :
    slot.preempt h = Except.ok h := by
  simp [preempt, hcell]

theorem preempt_of_pending (slot : Slot) (h : Heap T) (i : Nat) (cmd : T)
    (hcell : h.mutexes slot.data = some (⟨some i⟩, cmd))
    (hpending : h.shared[i]? = some SharedState.pending) :
    slot.preempt h
      = Except.ok ⟨h.shared.set i (SharedState.ready Completion.Preempted), h.mutexes⟩ := by
  simp [preempt, hcell, Promise.set_value, hpending]

theorem getElem?_set_ready (shared : List SharedState) (i : Nat) (v : Completion)
    (hpending : shared[i]? = some SharedState.pending) :
    (shared.set i (SharedState.ready v))[i]? = some (SharedState.ready v) := by
  obtain ⟨hi, _⟩ := List.getElem?_eq_some.mp hpending
  simp [List.getElem?_set, hi]

theorem abandon_of_ready (shared : List SharedState) (i : Nat) (v : Completion)
    (hready : shared[i]? = some (SharedState.ready v)) :
    Promise.abandon ⟨some i⟩ shared = shared := by
  simp [Promise.abandon, hready]

/-- C9: preemption on enqueue. For every slot whose cell holds an unconsumed command with an
unresolved promise, `enqueue` first resolves that stored promise with `Preempted`, the cell
still holding the old pair at that moment, and then overwrites the cell; `enqueue` returns,
and in the heap it returns the first promise is resolved with `Preempted`. -/
theorem enqueue_preempts_pending (construct : IntoT → T) (slot : Slot) (t_args : IntoT)
    (h : Heap T) (i : Nat) (cmd : T)
    (hcell : h.mutexes slot.data = some (⟨some i⟩, cmd))
    (hpending : h.shared[i]? = some SharedState.pending) :
    ∃ h1 : Heap T, slot.preempt h = Except.ok h1
      ∧ h1.shared[i]? = some (SharedState.ready Completion.Preempted)
      ∧ h1.mutexes slot.data = some (⟨some i⟩, cmd)
      ∧ enqueue construct slot t_args h = Except.ok (store construct slot t_args h1)
      ∧ (store construct slot t_args h1).2.shared[i]?
          = some (SharedState.ready Completion.Preempted) := by
  have hset := getElem?_set_ready h.shared i Completion.Preempted hpending
  refine ⟨⟨h.shared.set i (SharedState.ready Completion.Preempted), h.mutexes⟩,
    preempt_of_pending slot h i cmd hcell hpending, hset, hcell, ?_, ?_⟩
  · simp [enqueue, preempt_of_pending slot h i cmd hcell hpending]
  · obtain ⟨hi, _⟩ := List.getElem?_eq_some.mp hpending
    have happ : (h.shared.set i (SharedState.ready Completion.Preempted)
        ++ [SharedState.pending])[i]? = some (SharedState.ready Completion.Preempted) := by
      rw [List.getElem?_append_left (by simpa using hi)]
      exact hset
    simp only [store, hcell]
    rw [abandon_of_ready _ i Completion.Preempted happ]
    exact happ

/-- A second `enqueue` on the cell of `pendingHeap` resolves the promise of command `7` with
`Preempted`. -/
theorem enqueue_preempts_pending_witness :
    pendingHeap.mutexes (Slot.mk 0).data = some (⟨some 0⟩, 7)
    ∧ pendingHeap.shared[0]? = some SharedState.pending
    ∧ ∃ h1 : Heap Nat, (Slot.mk 0).preempt pendingHeap = Except.ok h1
      ∧ h1.shared[0]? = some (SharedState.ready Completion.Preempted)
      ∧ h1.mutexes (Slot.mk 0).data = some (⟨some 0⟩, 7)
      ∧ enqueue (fun n : Nat => n) (Slot.mk 0) 8 pendingHeap
          = Except.ok (store (fun n : Nat => n) (Slot.mk 0) 8 h1)
      ∧ (store (fun n : Nat => n) (Slot.mk 0) 8 h1).2.shared[0]?
          = some (SharedState.ready Completion.Preempted) :=
  ⟨rfl, rfl, enqueue_preempts_pending (fun n : Nat => n) (Slot.mk 0) 8 pendingHeap 0 7 rfl rfl⟩

/-- C10 as stated fails: on the cell of `resolvedHeap`, which holds a command whose promise is
already resolved, `enqueue` throws `promise_already_satisfied`; it returns no future and the
cell does not hold the new command. -/
theorem enqueue_every_cell_counterexample :
    enqueue (fun n : Nat => n) (Slot.mk 0) 8 resolvedHeap
        = Except.error future_errc.promise_already_satisfied
    ∧ ¬ ∃ (fut : Future) (h2 : Heap Nat),
        enqueue (fun n : Nat => n) (Slot.mk 0) 8 resolvedHeap = Except.ok (fut, h2)
        ∧ h2.mutexes 0 = some (⟨fut.state⟩, 8) := by
  have herr : enqueue (fun n : Nat => n) (Slot.mk 0) 8 resolvedHeap
      = Except.error future_errc.promise_already_satisfied := rfl
  refine ⟨herr, ?_⟩
  rintro ⟨fut, h2, hok, _⟩
  rw [herr] at hok
  exact Except.noConfusion hok

/-- C10, amended: no auto-resolution. For every cell that is empty or holds a command whose
promise is still unresolved, `enqueue(args)` returns, and afterwards the cell holds exactly
the command constructed from `args` paired with a promise on a newly allocated shared state
that is still pending; the returned future is the future of that stored promise. On an empty
cell the shared states that existed before are all unchanged: no promise is resolved. -/
theorem enqueue_stores_pending (construct : IntoT → T) (slot : Slot) (t_args : IntoT)
    (h : Heap T)
    (hstate : h.mutexes slot.data = Option.none
      ∨ ∃ (i : Nat) (cmd : T), h.mutexes slot.data = some (⟨some i⟩, cmd)
          ∧ h.shared[i]? = some SharedState.pending) :
    ∃ (fut : Future) (h2 : Heap T),
      enqueue construct slot t_args h = Except.ok (fut, h2)
      ∧ h2.mutexes slot.data = some (⟨some h.shared.length⟩, construct t_args)
      ∧ fut = Promise.get_future ⟨some h.shared.length⟩
      ∧ h2.shared.length = h.shared.length + 1
      ∧ h2.shared[h.shared.length]? = some SharedState.pending
      ∧ (h.mutexes slot.data = Option.none → h2.shared = h.shared ++ [SharedState.pending]) := by
  rcases hstate with hnone | ⟨i, cmd, hcell, hpending⟩
  · refine ⟨Promise.get_future ⟨some h.shared.length⟩,
      ⟨h.shared ++ [SharedState.pending],
        Function.update h.mutexes slot.data (some (⟨some h.shared.length⟩, construct t_args))⟩,
      ?_, by simp, rfl, by simp, by simp, fun _ => rfl⟩
    simp [enqueue, preempt_of_empty slot h hnone, store, hnone]
  · obtain ⟨hi, _⟩ := List.getElem?_eq_some.mp hpending
    have hset := getElem?_set_ready h.shared i Completion.Preempted hpending
    have happ : (h.shared.set i (SharedState.ready Completion.Preempted)
        ++ [SharedState.pending])[i]? = some (SharedState.ready Completion.Preempted) := by
      rw [List.getElem?_append_left (by simpa using hi)]
      exact hset
    refine ⟨Promise.get_future ⟨some h.shared.length⟩,
      ⟨h.shared.set i (SharedState.ready Completion.Preempted) ++ [SharedState.pending],
        Function.update h.mutexes slot.data (some (⟨some h.shared.length⟩, construct t_args))⟩,
      ?_, by simp, rfl, by simp, ?_, ?_⟩
    · simp [enqueue, preempt_of_pending slot h i cmd hcell hpending, store, hcell,
        abandon_of_ready _ i Completion.Preempted happ]
    · have hlen : (h.shared.set i (SharedState.ready Completion.Preempted)).length
          = h.shared.length := by simp
      rw [List.getElem?_append_right (by omega), hlen]
      simp
    · intro hnone
      rw [hnone] at hcell
      exact Option.noConfusion hcell

/-- The first `enqueue` on the empty cell of `emptyHeap` stores command `8` with a pending
promise and resolves nothing. -/
theorem enqueue_stores_pending_witness :
    (emptyHeap.mutexes (Slot.mk 0).data = Option.none
      ∨ ∃ (i : Nat) (cmd : Nat), emptyHeap.mutexes (Slot.mk 0).data = some (⟨some i⟩, cmd)
          ∧ emptyHeap.shared[i]? = some SharedState.pending)
    ∧ ∃ (fut : Future) (h2 : Heap Nat),
      enqueue (fun n : Nat => n) (Slot.mk 0) 8 emptyHeap = Except.ok (fut, h2)
      ∧ h2.mutexes (Slot.mk 0).data = some (⟨some emptyHeap.shared.length⟩, 8)
      ∧ fut = Promise.get_future ⟨some emptyHeap.shared.length⟩
      ∧ h2.shared.length = emptyHeap.shared.length + 1
      ∧ h2.shared[emptyHeap.shared.length]? = some SharedState.pending
      ∧ (emptyHeap.mutexes (Slot.mk 0).data = Option.none →
          h2.shared = emptyHeap.shared ++ [SharedState.pending]) :=
  ⟨Or.inl rfl, enqueue_stores_pending (fun n : Nat => n) (Slot.mk 0) 8 emptyHeap (Or.inl rfl)⟩

end Slot

/-! ## Algebra of `Calibration.set` -/

namespace Calibration

variable {N : Nat} {Params : Type}

theorem strippedGroups_cons (m : Bitset N) (g : Bitset N × Params)
    (rest : List (Bitset N × Params)) :
    strippedGroups m (g :: rest)
      = if (g.1.and m.flip).none then strippedGroups m rest
        else (g.1.and m.flip, g.2) :: strippedGroups m rest :=
  rfl

theorem strippedGroups_append (m : Bitset N) (xs ys : List (Bitset N × Params)) :
    strippedGroups m (xs ++ ys) = strippedGroups m xs ++ strippedGroups m ys := by
  induction xs with
  | nil => rfl
  | cons g rest ih =>
    rw [List.cons_append, strippedGroups_cons, strippedGroups_cons, ih]
    split <;> rfl

theorem and_flip_comm (g m1 m2 : Bitset N) :
    (g.and m1.flip).and m2.flip = (g.and m2.flip).and m1.flip := by
  apply Bitset.ext_test
  intro t
  simp only [Bitset.test_and_flip, Bool.and_assoc]
  rw [Bool.and_comm (!m1.test t)]

theorem strippedGroups_comm (m1 m2 : Bitset N) (groups : List (Bitset N × Params)) :
    strippedGroups m2 (strippedGroups m1 groups) = strippedGroups m1 (strippedGroups m2 groups) := by
  induction groups with
  | nil => rfl
  | cons g rest ih =>
    simp only [strippedGroups]
    cases h1 : (g.1.and m1.flip).none <;> cases h2 : (g.1.and m2.flip).none
    · simp only [Bool.false_eq_true, if_false, strippedGroups, and_flip_comm g.1 m1 m2, ih]
    · have h12 := none_and_flip_of_none m1 h2
      rw [← and_flip_comm] at h12
      simp [strippedGroups, h12, ih]
    · have h21 := none_and_flip_of_none m2 h1
      rw [and_flip_comm] at h21
      simp [strippedGroups, h21, ih]
    · simp [ih]

theorem and_flip_of_subset {m1 m2 : Bitset N} (hsub : (m1.and m2.flip).none = true)
    (g : Bitset N) : (g.and m1.flip).and m2.flip = g.and m2.flip := by
  apply Bitset.ext_test
  intro t
  have ht := Bitset.test_eq_false_of_none hsub t
  simp only [Bitset.test_and_flip] at ht ⊢
  cases h1 : m1.test t <;> cases h2 : m2.test t <;> simp [h1, h2] at ht ⊢

theorem strippedGroups_of_subset {m1 m2 : Bitset N} (hsub : (m1.and m2.flip).none = true)
    (groups : List (Bitset N × Params)) :
    strippedGroups m2 (strippedGroups m1 groups) = strippedGroups m2 groups := by
  induction groups with
  | nil => rfl
  | cons g rest ih =>
    simp only [strippedGroups]
    cases h1 : (g.1.and m1.flip).none
    · simp only [Bool.false_eq_true, if_false, strippedGroups, and_flip_of_subset hsub g.1, ih]
    · have h2 := none_and_flip_of_none m2 h1
      rw [and_flip_of_subset hsub] at h2
      simp [h2, ih]

theorem and_flip_of_disjoint {m1 m2 : Bitset N} (hdis : (m1.and m2).none = true) :
    m1.and m2.flip = m1 := by
  apply Bitset.ext_test
  intro t
  have ht := Bitset.test_eq_false_of_none hdis t
  rw [Bitset.test_and] at ht
  rw [Bitset.test_and_flip]
  cases h1 : m1.test t <;> cases h2 : m2.test t <;> simp [h1, h2] at ht ⊢

theorem and_none_comm {m1 m2 : Bitset N} (hdis : (m1.and m2).none = true) :
    (m2.and m1).none = true := by
  rw [Bitset.none_iff] at hdis ⊢
  intro t
  have ht := hdis t
  rw [Bitset.test_and] at ht ⊢
  rwa [Bool.and_comm]

theorem none_of_subset_none {m1 m2 : Bitset N} (hsub : (m1.and m2.flip).none = true)
    (h2 : m2.none = true) : m1.none = true := by
  rw [Bitset.none_iff] at hsub ⊢
  intro t
  have ht := hsub t
  rw [Bitset.test_and_flip, Bitset.test_eq_false_of_none h2 t] at ht
  simpa using ht

/-- C19: subsumption and idempotence of `set`. For every store `s`, all masks `m1`, `m2`
with `m1` a subset of `m2` (nothing of `m1` lies outside `m2`) and all values, `set(m1, v1)`
followed by `set(m2, v2)` leaves the same store, same groups in the same order, as
`set(m2, v2)` alone; in particular `set(m2, v2)` twice equals `set(m2, v2)` once. -/
theorem set_subsumed (s : Calibration N Params) (m1 m2 : Bitset N) (v1 v2 : Params)
    (hsub : (m1.and m2.flip).none = true) :
    (s.set m1 v1).set m2 v2 = s.set m2 v2
    ∧ (s.set m2 v2).set m2 v2 = s.set m2 v2 := by
  have key : ∀ (m : Bitset N) (v : Params), (m.and m2.flip).none = true →
      (s.set m v).set m2 v2 = s.set m2 v2 := by
    intro m v hm
    cases h2 : m2.none with
    | true =>
      rw [set_of_none _ _ h2, set_of_none _ _ h2, set_of_none _ _ (none_of_subset_none hm h2)]
    | false =>
      cases h1 : m.none with
      | true => rw [set_of_none s v h1]
      | false =>
        rw [set_of_some s v h1, set_of_some _ v2 h2, set_of_some s v2 h2]
        simp only [strippedGroups_append, strippedGroups, hm, if_true, List.append_nil,
          strippedGroups_of_subset hm]
  refine ⟨key m1 v1 hsub, key m2 v2 ?_⟩
  rw [Bitset.none_iff]
  intro t
  rw [Bitset.test_and_flip]
  cases m2.test t <;> rfl

/-- After `set(10101, 0)`, writing `00101` and then `00111` gives what writing `00111`
alone gives. -/
theorem set_subsumed_witness :
    ((Bitset.ofNat 5 0b00101).and (Bitset.ofNat 5 0b00111).flip).none = true
    ∧ ((((fresh : Calibration 5 Int).set (Bitset.ofNat 5 0b10101) 0).set
            (Bitset.ofNat 5 0b00101) 4).set (Bitset.ofNat 5 0b00111) 1
          = ((fresh : Calibration 5 Int).set (Bitset.ofNat 5 0b10101) 0).set
            (Bitset.ofNat 5 0b00111) 1
        ∧ (((fresh : Calibration 5 Int).set (Bitset.ofNat 5 0b10101) 0).set
            (Bitset.ofNat 5 0b00111) 1).set (Bitset.ofNat 5 0b00111) 1
          = ((fresh : Calibration 5 Int).set (Bitset.ofNat 5 0b10101) 0).set
            (Bitset.ofNat 5 0b00111) 1)
    ∧ ((((fresh : Calibration 5 Int).set (Bitset.ofNat 5 0b10101) 0).set
            (Bitset.ofNat 5 0b00101) 4).set (Bitset.ofNat 5 0b00111) 1).get
        = [(Bitset.ofNat 5 0b10000, 0), (Bitset.ofNat 5 0b00111, 1)] :=
  ⟨by decide,
    set_subsumed ((fresh : Calibration 5 Int).set (Bitset.ofNat 5 0b10101) 0)
      (Bitset.ofNat 5 0b00101) (Bitset.ofNat 5 0b00111) 4 1 (by decide),
    by decide⟩

/-- C20: independent writes commute. For every store `s`, all masks `m1`, `m2` with an empty
intersection and all values, the stores after `set(m1, v1); set(m2, v2)` and after
`set(m2, v2); set(m1, v1)` hold the same groups: they are permutations of each other, made
of a common list of earlier groups followed by at most two groups in either order. -/
theorem set_commute (s : Calibration N Params) (m1 m2 : Bitset N) (v1 v2 : Params)
    (hdis : (m1.and m2).none = true) :
    List.Perm ((s.set m1 v1).set m2 v2).get ((s.set m2 v2).set m1 v1).get
    ∧ ∃ (earlier a b : List (Bitset N × Params)), a.length ≤ 1 ∧ b.length ≤ 1
        ∧ ((s.set m1 v1).set m2 v2).get = earlier ++ a ++ b
        ∧ ((s.set m2 v2).set m1 v1).get = earlier ++ b ++ a := by
  have key : ∃ (earlier a b : List (Bitset N × Params)), a.length ≤ 1 ∧ b.length ≤ 1
      ∧ ((s.set m1 v1).set m2 v2).get = earlier ++ a ++ b
      ∧ ((s.set m2 v2).set m1 v1).get = earlier ++ b ++ a := by
    cases h1 : m1.none with
    | true =>
      refine ⟨(s.set m2 v2).get, [], [], by simp, by simp, ?_, ?_⟩
      · rw [set_of_none s v1 h1]
        simp
      · rw [set_of_none _ v1 h1]
        simp
    | false =>
      cases h2 : m2.none with
      | true =>
        refine ⟨(s.set m1 v1).get, [], [], by simp, by simp, ?_, ?_⟩
        · rw [set_of_none _ v2 h2]
          simp
        · rw [set_of_none s v2 h2]
          simp
      | false =>
        refine ⟨strippedGroups m2 (strippedGroups m1 s.parameter_groups),
          [(m1, v1)], [(m2, v2)], by simp, by simp, ?_, ?_⟩
        · rw [set_of_some s v1 h1, set_of_some _ v2 h2]
          simp only [get, strippedGroups_append, strippedGroups, and_flip_of_disjoint hdis, h1,
            Bool.false_eq_true, if_false]
        · rw [set_of_some s v2 h2, set_of_some _ v1 h1]
          simp only [get, strippedGroups_append, strippedGroups,
            and_flip_of_disjoint (and_none_comm hdis), h2, Bool.false_eq_true, if_false,
            strippedGroups_comm m2 m1]
  refine ⟨?_, key⟩
  obtain ⟨earlier, a, b, _, _, hl, hr⟩ := key
  rw [hl, hr, List.append_assoc, List.append_assoc]
  exact List.Perm.append_left earlier List.perm_append_comm

/-- After `set(10101, 0)`, the disjoint writes `set(00100, 1)` and `set(01000, 2)` leave the
same three groups in either order of the two calls. -/
theorem set_commute_witness :
    ((Bitset.ofNat 5 0b00100).and (Bitset.ofNat 5 0b01000)).none = true
    ∧ (List.Perm
        ((((fresh : Calibration 5 Int).set (Bitset.ofNat 5 0b10101) 0).set
            (Bitset.ofNat 5 0b00100) 1).set (Bitset.ofNat 5 0b01000) 2).get
        ((((fresh : Calibration 5 Int).set (Bitset.ofNat 5 0b10101) 0).set
            (Bitset.ofNat 5 0b01000) 2).set (Bitset.ofNat 5 0b00100) 1).get
      ∧ ∃ (earlier a b : List (Bitset 5 × Int)), a.length ≤ 1 ∧ b.length ≤ 1
        ∧ ((((fresh : Calibration 5 Int).set (Bitset.ofNat 5 0b10101) 0).set
            (Bitset.ofNat 5 0b00100) 1).set (Bitset.ofNat 5 0b01000) 2).get
          = earlier ++ a ++ b
        ∧ ((((fresh : Calibration 5 Int).set (Bitset.ofNat 5 0b10101) 0).set
            (Bitset.ofNat 5 0b01000) 2).set (Bitset.ofNat 5 0b00100) 1).get
          = earlier ++ b ++ a)
    ∧ ((((fresh : Calibration 5 Int).set (Bitset.ofNat 5 0b10101) 0).set
            (Bitset.ofNat 5 0b00100) 1).set (Bitset.ofNat 5 0b01000) 2).get
        = [(Bitset.ofNat 5 0b10001, 0), (Bitset.ofNat 5 0b00100, 1), (Bitset.ofNat 5 0b01000, 2)] :=
  ⟨by decide,
    set_commute ((fresh : Calibration 5 Int).set (Bitset.ofNat 5 0b10101) 0)
      (Bitset.ofNat 5 0b00100) (Bitset.ofNat 5 0b01000) 1 2 (by decide),
    by decide⟩

end Calibration

/-! ## Properties of `Entangled` and `CompletionGuard` -/

namespace Entangled

variable {Now : Type} {Strict : bool_constant}

theorem get_of_ready (e : Entangled Now Strict) (shared : List SharedState) (i : Nat)
    (w : Completion) (hf : e.later.state = some i)
    (hs : shared[i]? = some (SharedState.ready w)) :
    e.get shared = Blocking.returned (e.now, w) := by
  simp [get, Future.get, hf, hs]

theorem get_of_pending (e : Entangled Now Strict) (shared : List SharedState) (i : Nat)
    (hf : e.later.state = some i) (hs : shared[i]? = some SharedState.pending) :
    e.get shared = Blocking.blocked := by
  simp [get, Future.get, hf, hs]

theorem ready_of_get (e : Entangled Now Strict) (shared : List SharedState)
    (p : Now × Completion) (hget : e.get shared = Blocking.returned p) :
    p.1 = e.now ∧ ∃ i, e.later.state = some i ∧ shared[i]? = some (SharedState.ready p.2) := by
  unfold get Future.get at hget
  cases hf : e.later.state with
  | none => simp [hf] at hget
  | some i =>
    cases hs : shared[i]? with
    | none => simp [hf, hs] at hget
    | some st =>
      cases st with
      | pending => simp [hf, hs] at hget
      | broken => simp [hf, hs] at hget
      | ready v =>
        simp [hf, hs] at hget
        subst hget
        exact ⟨rfl, i, rfl, hs⟩

/-- C13: `Entangled.get` returns only after the underlying future is ready and returns both
values. For every `now` value `n`, every `later` future `f` and every state of the shared
states, `get` returns exactly when `f` is resolved with a value; it then yields `(n, w)` with
`w` the value `f` was resolved with, and while `f` is unresolved it is blocked and yields
nothing. -/
theorem entangled_get_strict (n : Now) (f : Future) (shared : List SharedState) :
    ((∃ p, (Entangled.mk n f : Entangled Now Strict).get shared = Blocking.returned p)
        ↔ ∃ i w, f.state = some i ∧ shared[i]? = some (SharedState.ready w))
    ∧ (∀ i w, f.state = some i → shared[i]? = some (SharedState.ready w) →
        (Entangled.mk n f : Entangled Now Strict).get shared = Blocking.returned (n, w))
    ∧ (∀ i, f.state = some i → shared[i]? = some SharedState.pending →
        (Entangled.mk n f : Entangled Now Strict).get shared = Blocking.blocked)
    ∧ (∀ p, (Entangled.mk n f : Entangled Now Strict).get shared = Blocking.returned p →
        p.1 = n ∧ ∃ i, f.state = some i ∧ shared[i]? = some (SharedState.ready p.2)) := by
  refine ⟨⟨?_, ?_⟩, ?_, ?_, ?_⟩
  · rintro ⟨p, hp⟩
    obtain ⟨_, i, hf, hs⟩ := ready_of_get _ shared p hp
    exact ⟨i, p.2, hf, hs⟩
  · rintro ⟨i, w, hf, hs⟩
    exact ⟨(n, w), get_of_ready _ shared i w hf hs⟩
  · intro i w hf hs
    exact get_of_ready _ shared i w hf hs
  · intro i hf hs
    exact get_of_pending _ shared i hf hs
  · intro p hp
    exact ready_of_get _ shared p hp

/-- C14: `Entangled.status` is a non-consuming poll of the later value. Queried while `later`
is unresolved it reports `timeout` (not ready), queried once `later` is resolved it reports
`ready`; the call leaves the pair and the shared states as they were, so a following `get`
gives what it would have given without the `status` call. -/
theorem entangled_status_polls (e : Entangled Now Strict) (shared : List SharedState) :
    (∀ i, e.later.state = some i → shared[i]? = some SharedState.pending →
        (e.status shared).1 = Except.ok future_status.timeout)
    ∧ (∀ i w, e.later.state = some i → shared[i]? = some (SharedState.ready w) →
        (e.status shared).1 = Except.ok future_status.ready)
    ∧ (e.status shared).2 = (e, shared)
    ∧ (e.status shared).2.1.get (e.status shared).2.2 = e.get shared := by
  refine ⟨?_, ?_, rfl, rfl⟩
  · intro i hf hs
    simp [status, Future.wait_for, hf, hs]
  · intro i w hf hs
    simp [status, Future.wait_for, hf, hs]

/-- C15 as stated fails: on a relaxed pair (`Strict = std::false_type`) the call
`unsafe_get<std::true_type>` does not satisfy the availability condition, so the condition
does not hold for every choice of `T` whenever `Strict` is false. -/
theorem unsafe_get_every_T_counterexample :
    unsafe_get_enabled bool_constant.false_type bool_constant.true_type = false
    ∧ ¬ (∀ S T : bool_constant,
          unsafe_get_enabled S T = true ↔ S = bool_constant.false_type) := by
  refine ⟨rfl, ?_⟩
  intro hall
  have h := (hall bool_constant.false_type bool_constant.true_type).mpr rfl
  exact Bool.noConfusion h

end Entangled

namespace CompletionGuard

variable {IntoT T : Type}

theorem enqueue_eq_enqueueAsSlot (construct : IntoT → T) (g : CompletionGuard)
    (t_args : IntoT) (h : Heap T) :
    enqueue construct g t_args h = enqueueAsSlot construct g t_args h := by
  cases g with
  | mk slot =>
    cases slot with
    | mk data => rfl

/-- C15, amended: the availability condition of `unsafe_get<T>` holds if and only if `Strict`
is `std::false_type` and `T` is `Strict` itself, its default; on a strict pair it fails for
every `T`. The default mode of `Entangled` is strict, and so is the pair returned by
`CompletionGuard.enqueue`, for which no `T` enables `unsafe_get`. -/
theorem unsafe_get_availability (S U : bool_constant) (construct : IntoT → T)
    (g : CompletionGuard) (t_args : IntoT) (h : Heap T) :
    (Entangled.unsafe_get_enabled S U = true ↔ (S = bool_constant.false_type ∧ U = S))
    ∧ Entangled.unsafe_get_enabled bool_constant.true_type U = false
    ∧ Entangled.unsafe_get_enabled bool_constant.false_type bool_constant.false_type = true
    ∧ (∀ (Now : Type) (e : Entangled Now), e.mode = bool_constant.true_type)
    ∧ (∀ e h2, enqueue construct g t_args h = Except.ok (e, h2) →
        e.mode = bool_constant.true_type ∧ Entangled.unsafe_get_enabled e.mode U = false) := by
  refine ⟨?_, ?_, rfl, fun _ _ => rfl, ?_⟩
  · cases S <;> cases U <;> simp [Entangled.unsafe_get_enabled, bool_constant.value]
  · cases U <;> rfl
  · intro e h2 _
    refine ⟨rfl, ?_⟩
    cases U <;> rfl

/-- C16: `CompletionGuard.enqueue` is `Slot.enqueue` plus hand-back of the guard. For every
heap it gives what `Slot.enqueue` on the slot of the guard gives, the future handed back with
the guard; when it returns, the heap is the heap left by that `Slot.enqueue`, the future of the
pair is the future that `Slot.enqueue` returned, and the slot of the guard in the pair refers
to the same cell as before, the slot left behind by the move included; it throws exactly when
`Slot.enqueue` throws. -/
theorem guard_enqueue_refines_slot (construct : IntoT → T) (g : CompletionGuard)
    (t_args : IntoT) (h : Heap T) :
    enqueue construct g t_args h = enqueueAsSlot construct g t_args h
    ∧ (∀ e h2, enqueue construct g t_args h = Except.ok (e, h2) →
        Slot.enqueue construct g.slot t_args h = Except.ok (e.later, h2)
        ∧ e.now.slot.data = g.slot.data)
    ∧ (∀ err, enqueue construct g t_args h = Except.error err ↔
        Slot.enqueue construct g.slot t_args h = Except.error err)
    ∧ g.slot.move.1.data = g.slot.data ∧ g.slot.move.2.data = g.slot.data := by
  refine ⟨enqueue_eq_enqueueAsSlot construct g t_args h, ?_, ?_, rfl, rfl⟩
  · intro e h2 hok
    rw [enqueue_eq_enqueueAsSlot] at hok
    unfold enqueueAsSlot at hok
    cases hs : Slot.enqueue construct g.slot t_args h with
    | error err => simp [hs] at hok
    | ok r =>
      obtain ⟨later, h3⟩ := r
      simp only [hs, Except.ok.injEq, Prod.mk.injEq] at hok
      obtain ⟨he, hh⟩ := hok
      subst he
      subst hh
      exact ⟨rfl, rfl⟩
  · intro err
    rw [enqueue_eq_enqueueAsSlot]
    unfold enqueueAsSlot
    cases hs : Slot.enqueue construct g.slot t_args h with
    | error e2 => simp
    | ok r => simp

end CompletionGuard

/-! ## Facts about `Slot.enqueue` and about runs shared by the properties below -/

namespace Slot

variable {IntoT T : Type}

theorem enqueue_of_empty (construct : IntoT → T) (slot : Slot) (t_args : IntoT) (h : Heap T)
    (hcell : h.mutexes slot.data = Option.none) :
    enqueue construct slot t_args h
      = Except.ok (⟨some h.shared.length⟩,
          ⟨h.shared ++ [SharedState.pending],
            Function.update h.mutexes slot.data
              (some (⟨some h.shared.length⟩, construct t_args))⟩) := by
  simp [enqueue, preempt_of_empty slot h hcell, store, hcell, Promise.get_future]

theorem enqueue_of_pending (construct : IntoT → T) (slot : Slot) (t_args : IntoT) (h : Heap T)
    (i : Nat) (cmd : T) (hcell : h.mutexes slot.data = some (⟨some i⟩, cmd))
    (hpending : h.shared[i]? = some SharedState.pending) :
    enqueue construct slot t_args h
      = Except.ok (⟨some h.shared.length⟩,
          ⟨h.shared.set i (SharedState.ready Completion.Preempted) ++ [SharedState.pending],
            Function.update h.mutexes slot.data
              (some (⟨some h.shared.length⟩, construct t_args))⟩) := by
  obtain ⟨hi, _⟩ := List.getElem?_eq_some.mp hpending
  have hset := getElem?_set_ready h.shared i Completion.Preempted hpending
  have happ : (h.shared.set i (SharedState.ready Completion.Preempted)
      ++ [SharedState.pending])[i]? = some (SharedState.ready Completion.Preempted) := by
    rw [List.getElem?_append_left (by simpa using hi)]
    exact hset
  simp [enqueue, preempt_of_pending slot h i cmd hcell hpending, store, hcell,
    abandon_of_ready _ i Completion.Preempted happ, Promise.get_future]

theorem enqueue_error_of_stale (construct : IntoT → T) (slot : Slot) (t_args : IntoT)
    (h : Heap T) (p : Promise) (cmd : T) (hcell : h.mutexes slot.data = some (p, cmd))
    (hstale : ∀ i, p.state = some i → h.shared[i]? ≠ some SharedState.pending) :
    ∃ err, enqueue construct slot t_args h = Except.error err := by
  unfold enqueue preempt Promise.set_value
  cases hp : p.state with
  | none => exact ⟨future_errc.no_state, by simp [hcell, hp]⟩
  | some i =>
    cases hs : h.shared[i]? with
    | none => exact ⟨future_errc.no_state, by simp [hcell, hp, hs]⟩
    | some st =>
      cases st with
      | pending => exact absurd hs (hstale i hp)
      | ready v => exact ⟨future_errc.promise_already_satisfied, by simp [hcell, hp, hs]⟩
      | broken => exact ⟨future_errc.promise_already_satisfied, by simp [hcell, hp, hs]⟩

/-- The three ways `enqueue` can go, by the content of the cell. -/
theorem enqueue_cases (construct : IntoT → T) (slot : Slot) (t_args : IntoT) (h : Heap T) :
    (h.mutexes slot.data = Option.none
      ∧ enqueue construct slot t_args h
        = Except.ok (⟨some h.shared.length⟩,
            ⟨h.shared ++ [SharedState.pending],
              Function.update h.mutexes slot.data
                (some (⟨some h.shared.length⟩, construct t_args))⟩))
    ∨ (∃ (i : Nat) (cmd : T), h.mutexes slot.data = some (⟨some i⟩, cmd)
      ∧ h.shared[i]? = some SharedState.pending
      ∧ enqueue construct slot t_args h
        = Except.ok (⟨some h.shared.length⟩,
            ⟨h.shared.set i (SharedState.ready Completion.Preempted) ++ [SharedState.pending],
              Function.update h.mutexes slot.data
                (some (⟨some h.shared.length⟩, construct t_args))⟩))
    ∨ (∃ (p : Promise) (cmd : T), h.mutexes slot.data = some (p, cmd)
      ∧ (∀ i, p.state = some i → h.shared[i]? ≠ some SharedState.pending)
      ∧ ∃ err, enqueue construct slot t_args h = Except.error err) := by
  cases hcell : h.mutexes slot.data with
  | none => exact Or.inl ⟨rfl, enqueue_of_empty construct slot t_args h hcell⟩
  | some command =>
    obtain ⟨p, cmd⟩ := command
    by_cases hp : ∃ i, p.state = some i ∧ h.shared[i]? = some SharedState.pending
    · obtain ⟨i, hpi, hi⟩ := hp
      have hpe : p = ⟨some i⟩ := by
        cases p
        simp only at hpi
        rw [hpi]
      subst hpe
      exact Or.inr (Or.inl ⟨i, cmd, rfl, hi,
        enqueue_of_pending construct slot t_args h i cmd hcell hi⟩)
    · have hstale : ∀ i, p.state = some i → h.shared[i]? ≠ some SharedState.pending :=
        fun i hpi hi => hp ⟨i, hpi, hi⟩
      exact Or.inr (Or.inr ⟨p, cmd, rfl, hstale,
        enqueue_error_of_stale construct slot t_args h p cmd hcell hstale⟩)

end Slot

namespace Run

variable {IntoT T : Type}

theorem eraseIdx_split {α : Type} (l : List α) (k : Nat) (x : α) (h : l[k]? = some x) :
    ∃ l1 l2, l = l1 ++ x :: l2 ∧ l.eraseIdx k = l1 ++ l2 := by
  induction l generalizing k with
  | nil => simp at h
  | cons a rest ih =>
    cases k with
    | zero =>
      simp at h
      subst h
      exact ⟨[], rest, rfl, rfl⟩
    | succ k =>
      obtain ⟨l1, l2, h1, h2⟩ := ih k (by simpa using h)
      refine ⟨a :: l1, l2, ?_, ?_⟩
      · rw [h1]
        rfl
      · rw [List.eraseIdx_cons_succ, h2]
        rfl

theorem mem_delivered (before after : List SharedState) (i : Nat) (v : Completion) :
    (i, v) ∈ delivered before after
      ↔ before[i]? = some SharedState.pending ∧ after[i]? = some (SharedState.ready v) := by
  unfold delivered
  rw [List.mem_filterMap]
  constructor
  · rintro ⟨j, _, hj⟩
    split at hj
    · rename_i w hb ha
      simp only [Option.some.injEq, Prod.mk.injEq] at hj
      obtain ⟨rfl, rfl⟩ := hj
      exact ⟨hb, ha⟩
    · exact Option.noConfusion hj
  · rintro ⟨hb, ha⟩
    obtain ⟨hi, _⟩ := List.getElem?_eq_some.mp hb
    exact ⟨i, List.mem_range.mpr hi, by simp [hb, ha]⟩

theorem nodup_delivered (before after : List SharedState) :
    ((delivered before after).map Prod.fst).Nodup := by
  unfold delivered
  rw [List.map_filterMap]
  refine List.Nodup.filterMap ?_ (List.nodup_range _)
  intro a a2 b hb hb2
  have key : ∀ (j : Nat), b ∈ Option.map Prod.fst
      (match before[j]?, after[j]? with
        | some SharedState.pending, some (SharedState.ready value) => some (j, value)
        | _, _ => Option.none) → b = j := by
    intro j hj
    split at hj
    · simpa using hj.symm
    · simp at hj
  rw [← key a hb, ← key a2 hb2]

theorem getElem?_snoc_cases {α : Type} (l : List α) (x y : α) (i : Nat)
    (h : (l ++ [x])[i]? = some y) :
    (i < l.length ∧ l[i]? = some y) ∨ (i = l.length ∧ y = x) := by
  by_cases hi : i < l.length
  · rw [List.getElem?_append_left hi] at h
    exact Or.inl ⟨hi, h⟩
  · rw [List.getElem?_append_right (Nat.le_of_not_lt hi)] at h
    have h0 : i - l.length = 0 := by
      by_contra hne
      cases hk : i - l.length with
      | zero => exact hne hk
      | succ k => simp [hk] at h
    simp [h0] at h
    exact Or.inr ⟨by omega, h.symm⟩

theorem getElem?_snoc_of_some {α : Type} (l : List α) (x y : α) (i : Nat)
    (h : l[i]? = some y) : (l ++ [x])[i]? = some y := by
  obtain ⟨hi, _⟩ := List.getElem?_eq_some.mp h
  rw [List.getElem?_append_left hi]
  exact h

theorem getElem?_snoc_length {α : Type} (l : List α) (x : α) :
    (l ++ [x])[l.length]? = some x := by
  rw [List.getElem?_append_right (Nat.le_refl _)]
  simp

theorem getElem?_set_cases {α : Type} (l : List α) (a y : α) (i j : Nat)
    (h : (l.set j a)[i]? = some y) :
    (i = j ∧ y = a) ∨ (i ≠ j ∧ l[i]? = some y) := by
  rw [List.getElem?_set] at h
  by_cases hij : j = i
  · subst hij
    left
    split at h
    · split at h
      · exact ⟨rfl, (Option.some.inj h).symm⟩
      · exact Option.noConfusion h
    · rename_i hne
      exact absurd rfl hne
  · right
    rw [if_neg hij] at h
    exact ⟨fun hc => hij hc.symm, h⟩

theorem getElem?_set_of_ne {α : Type} (l : List α) (a : α) (i j : Nat) (hij : i ≠ j) :
    (l.set j a)[i]? = l[i]? := by
  rw [List.getElem?_set, if_neg (fun hc => hij hc.symm)]

theorem owners_of_empty (slot : Slot) (heap : Heap T) (held : List (Promise × T))
    (hcell : heap.mutexes slot.data = Option.none) :
    owners slot heap held = held.map Prod.fst := by
  simp [owners, cellOwner, hcell]

theorem owners_of_some (slot : Slot) (heap : Heap T) (held : List (Promise × T))
    (p : Promise) (cmd : T) (hcell : heap.mutexes slot.data = some (p, cmd)) :
    owners slot heap held = p :: held.map Prod.fst := by
  simp [owners, cellOwner, hcell]

theorem sigInv_step (before after : List SharedState) (signals : List (Nat × Completion))
    (hsig : SigInv before signals) (hgrow : Grows before after)
    (hnb : ∀ i : Nat, before[i]? ≠ some SharedState.broken) :
    SigInv after (signals ++ delivered before after) := by
  obtain ⟨hnd, hiff⟩ := hsig
  obtain ⟨hmono, hnew⟩ := hgrow
  constructor
  · rw [List.map_append, List.nodup_append]
    refine ⟨hnd, nodup_delivered before after, ?_⟩
    intro i hi1 hi2
    obtain ⟨⟨j, v⟩, hjv, hj⟩ := List.mem_map.mp hi1
    obtain ⟨⟨k, w⟩, hkw, hk⟩ := List.mem_map.mp hi2
    have hj2 : j = i := hj
    have hk2 : k = i := hk
    rw [hj2] at hjv
    rw [hk2] at hkw
    have h1 := (hiff i v).mp hjv
    have h2 := ((mem_delivered before after i w).mp hkw).1
    rw [h1] at h2
    simp at h2
  · intro i v
    rw [List.mem_append, mem_delivered]
    constructor
    · rintro (h | h)
      · exact hmono i v ((hiff i v).mp h)
      · exact h.2
    · intro ha
      cases hb : before[i]? with
      | none =>
        exact absurd ha (hnew i v (List.getElem?_eq_none_iff.mp hb))
      | some st =>
        cases st with
        | pending => exact Or.inr ⟨rfl, ha⟩
        | broken => exact absurd hb (hnb i)
        | ready w =>
          have := hmono i w hb
          rw [ha] at this
          simp only [Option.some.injEq, SharedState.ready.injEq] at this
          subst this
          exact Or.inl ((hiff i v).mpr hb)

theorem grows_refl (shared : List SharedState) : Grows shared shared := by
  refine ⟨fun _ _ h => h, ?_⟩
  intro i v hi
  rw [List.getElem?_eq_none hi]
  simp

theorem heapInv_enqueue_empty (construct : IntoT → T) (slot : Slot) (t_args : IntoT)
    (heap : Heap T) (held : List (Promise × T)) (hinv : HeapInv slot heap held)
    (hcell : heap.mutexes slot.data = Option.none) :
    HeapInv slot
        ⟨heap.shared ++ [SharedState.pending],
          Function.update heap.mutexes slot.data
            (some (⟨some heap.shared.length⟩, construct t_args))⟩ held
      ∧ Grows heap.shared (heap.shared ++ [SharedState.pending]) := by
  obtain ⟨hnd, hpend, hcov, _, hnb⟩ := hinv
  rw [owners_of_empty slot heap held hcell] at hnd hpend hcov
  have hown : owners slot
      ⟨heap.shared ++ [SharedState.pending],
        Function.update heap.mutexes slot.data
          (some (⟨some heap.shared.length⟩, construct t_args))⟩ held
      = (⟨some heap.shared.length⟩ : Promise) :: held.map Prod.fst := by
    simp [owners, cellOwner]
  have hfresh : (⟨some heap.shared.length⟩ : Promise) ∉ held.map Prod.fst := by
    intro hm
    obtain ⟨i, hi, hp⟩ := hpend _ hm
    simp only [Promise.mk.injEq, Option.some.injEq] at hi
    subst hi
    rw [List.getElem?_eq_none (Nat.le_refl _)] at hp
    exact Option.noConfusion hp
  refine ⟨⟨?_, ?_, ?_, ?_, ?_⟩, ?_, ?_⟩
  · rw [hown]
    exact List.nodup_cons.mpr ⟨hfresh, hnd⟩
  · rw [hown]
    intro p hp
    rcases List.mem_cons.mp hp with h | h
    · exact ⟨heap.shared.length, h, getElem?_snoc_length _ _⟩
    · obtain ⟨i, hi, hs⟩ := hpend p h
      exact ⟨i, hi, getElem?_snoc_of_some _ _ _ _ hs⟩
  · rw [hown]
    intro i hi
    rcases getElem?_snoc_cases _ _ _ _ hi with ⟨_, h⟩ | ⟨h, _⟩
    · exact List.mem_cons_of_mem _ (hcov i h)
    · subst h
      exact List.mem_cons_self _ _
  · intro p cmd hc
    simp only [Function.update_same, Option.some.injEq, Prod.mk.injEq] at hc
    rw [← hc.1]
    simp
  · intro i hi
    rcases getElem?_snoc_cases _ _ _ _ hi with ⟨_, h⟩ | ⟨_, h⟩
    · exact hnb i h
    · exact SharedState.noConfusion h
  · intro i v h
    exact getElem?_snoc_of_some _ _ _ _ h
  · intro i v hi hc
    rcases getElem?_snoc_cases _ _ _ _ hc with ⟨h, _⟩ | ⟨_, h⟩
    · omega
    · exact SharedState.noConfusion h

theorem heapInv_enqueue_pending (construct : IntoT → T) (slot : Slot) (t_args : IntoT)
    (heap : Heap T) (held : List (Promise × T)) (hinv : HeapInv slot heap held)
    (i : Nat) (cmd : T) (hcell : heap.mutexes slot.data = some (⟨some i⟩, cmd))
    (hi : heap.shared[i]? = some SharedState.pending) :
    HeapInv slot
        ⟨heap.shared.set i (SharedState.ready Completion.Preempted) ++ [SharedState.pending],
          Function.update heap.mutexes slot.data
            (some (⟨some heap.shared.length⟩, construct t_args))⟩ held
      ∧ Grows heap.shared
          (heap.shared.set i (SharedState.ready Completion.Preempted)
            ++ [SharedState.pending]) := by
  obtain ⟨hnd, hpend, hcov, _, hnb⟩ := hinv
  rw [owners_of_some slot heap held _ cmd hcell] at hnd hpend hcov
  obtain ⟨hnotin, hnd2⟩ := List.nodup_cons.mp hnd
  have hlen : (heap.shared.set i (SharedState.ready Completion.Preempted)).length
      = heap.shared.length := List.length_set _ _ _
  have hown : owners slot
      ⟨heap.shared.set i (SharedState.ready Completion.Preempted) ++ [SharedState.pending],
        Function.update heap.mutexes slot.data
          (some (⟨some heap.shared.length⟩, construct t_args))⟩ held
      = (⟨some heap.shared.length⟩ : Promise) :: held.map Prod.fst := by
    simp [owners, cellOwner]
  have hfresh : (⟨some heap.shared.length⟩ : Promise) ∉ held.map Prod.fst := by
    intro hm
    obtain ⟨j, hj, hp⟩ := hpend _ (List.mem_cons_of_mem _ hm)
    simp only [Promise.mk.injEq, Option.some.injEq] at hj
    subst hj
    rw [List.getElem?_eq_none (Nat.le_refl _)] at hp
    exact Option.noConfusion hp
  refine ⟨⟨?_, ?_, ?_, ?_, ?_⟩, ?_, ?_⟩
  · rw [hown]
    exact List.nodup_cons.mpr ⟨hfresh, hnd2⟩
  · rw [hown]
    intro p hp
    rcases List.mem_cons.mp hp with h | h
    · refine ⟨heap.shared.length, h, ?_⟩
      rw [← hlen]
      exact getElem?_snoc_length _ _
    · obtain ⟨j, hj, hs⟩ := hpend p (List.mem_cons_of_mem _ h)
      refine ⟨j, hj, getElem?_snoc_of_some _ _ _ _ ?_⟩
      have hji : j ≠ i := by
        intro hc
        subst hc
        subst hj
        exact hnotin h
      rw [getElem?_set_of_ne _ _ _ _ hji]
      exact hs
  · rw [hown]
    intro j hj
    rcases getElem?_snoc_cases _ _ _ _ hj with ⟨_, h⟩ | ⟨h, _⟩
    · rcases getElem?_set_cases _ _ _ _ _ h with ⟨_, h2⟩ | ⟨hne, h2⟩
      · exact SharedState.noConfusion h2
      · rcases List.mem_cons.mp (hcov j h2) with h3 | h3
        · simp only [Promise.mk.injEq, Option.some.injEq] at h3
          exact absurd h3 hne
        · exact List.mem_cons_of_mem _ h3
    · rw [h, hlen]
      exact List.mem_cons_self _ _
  · intro p c hc
    simp only [Function.update_same, Option.some.injEq, Prod.mk.injEq] at hc
    rw [← hc.1]
    simp
  · intro j hj
    rcases getElem?_snoc_cases _ _ _ _ hj with ⟨_, h⟩ | ⟨_, h⟩
    · rcases getElem?_set_cases _ _ _ _ _ h with ⟨_, h2⟩ | ⟨_, h2⟩
      · exact SharedState.noConfusion h2
      · exact hnb j h2
    · exact SharedState.noConfusion h
  · intro j v h
    apply getElem?_snoc_of_some
    have hji : j ≠ i := by
      intro hc
      subst hc
      rw [hi] at h
      simp at h
    rw [getElem?_set_of_ne _ _ _ _ hji]
    exact h
  · intro j v hj hc
    rcases getElem?_snoc_cases _ _ _ _ hc with ⟨h, _⟩ | ⟨_, h⟩
    · rw [hlen] at h
      omega
    · exact SharedState.noConfusion h

theorem heapInv_take (slot : Slot) (heap : Heap T) (held : List (Promise × T))
    (hinv : HeapInv slot heap held) :
    HeapInv slot (Consumer.take slot heap).2 (held ++ (Consumer.take slot heap).1.toList)
      ∧ (Consumer.take slot heap).2.shared = heap.shared := by
  cases hcell : heap.mutexes slot.data with
  | none =>
    have htake : Consumer.take slot heap = (Option.none, heap) := by
      simp [Consumer.take, hcell]
    rw [htake]
    simpa using hinv
  | some command =>
    obtain ⟨p, cmd⟩ := command
    have htake : Consumer.take slot heap
        = (some (p, cmd), ⟨heap.shared, Function.update heap.mutexes slot.data Option.none⟩) := by
      simp [Consumer.take, hcell]
    rw [htake]
    refine ⟨?_, rfl⟩
    obtain ⟨hnd, hpend, hcov, _, hnb⟩ := hinv
    rw [owners_of_some slot heap held p cmd hcell] at hnd hpend hcov
    have hown : owners slot
        ⟨heap.shared, Function.update heap.mutexes slot.data Option.none⟩
        (held ++ (some (p, cmd)).toList) = held.map Prod.fst ++ [p] := by
      simp [owners, cellOwner]
    have hperm : List.Perm (held.map Prod.fst ++ [p]) (p :: held.map Prod.fst) :=
      List.perm_append_comm
    refine ⟨?_, ?_, ?_, ?_, hnb⟩
    · rw [hown]
      exact hperm.nodup_iff.mpr hnd
    · rw [hown]
      intro q hq
      exact hpend q (hperm.mem_iff.mp hq)
    · rw [hown]
      intro i hi
      exact hperm.mem_iff.mpr (hcov i hi)
    · intro q c hc
      simp at hc

theorem heapInv_complete (slot : Slot) (heap : Heap T) (held : List (Promise × T))
    (hinv : HeapInv slot heap held) (k : Nat) (q : Promise) (cmd : T)
    (hk : held[k]? = some (q, cmd)) :
    ∃ j, q = ⟨some j⟩
      ∧ Consumer.complete q heap.shared
          = Except.ok (heap.shared.set j (SharedState.ready Completion.Completed))
      ∧ HeapInv slot ⟨heap.shared.set j (SharedState.ready Completion.Completed), heap.mutexes⟩
          (held.eraseIdx k)
      ∧ Grows heap.shared (heap.shared.set j (SharedState.ready Completion.Completed)) := by
  obtain ⟨hnd, hpend, hcov, hlast, hnb⟩ := hinv
  obtain ⟨l1, l2, hsplit, herase⟩ := eraseIdx_split held k (q, cmd) hk
  have hold : owners slot heap held
      = cellOwner (heap.mutexes slot.data) ++ l1.map Prod.fst ++ q :: l2.map Prod.fst := by
    simp [owners, hsplit]
  have hperm : List.Perm (owners slot heap held)
      (q :: (cellOwner (heap.mutexes slot.data) ++ l1.map Prod.fst ++ l2.map Prod.fst)) := by
    rw [hold]
    exact List.perm_middle
  have hnd2 := hperm.nodup_iff.mp hnd
  obtain ⟨hqnot, hnd3⟩ := List.nodup_cons.mp hnd2
  obtain ⟨j, hqj, hj⟩ := hpend q (hperm.mem_iff.mpr (List.mem_cons_self _ _))
  have hown : ∀ j2 : Nat, owners slot
      ⟨heap.shared.set j2 (SharedState.ready Completion.Completed), heap.mutexes⟩
        (held.eraseIdx k)
      = cellOwner (heap.mutexes slot.data) ++ l1.map Prod.fst ++ l2.map Prod.fst := by
    intro j2
    simp [owners, herase]
  refine ⟨j, hqj, ?_, ⟨?_, ?_, ?_, ?_, ?_⟩, ?_, ?_⟩
  · simp [Consumer.complete, Promise.set_value, hqj, hj]
  · rw [hown]
    exact hnd3
  · rw [hown]
    intro p hp
    obtain ⟨i, hpi, hi⟩ := hpend p (hperm.mem_iff.mpr (List.mem_cons_of_mem _ hp))
    refine ⟨i, hpi, ?_⟩
    have hij : i ≠ j := by
      intro hc
      subst hc
      rw [← hqj] at hpi
      subst hpi
      exact hqnot hp
    show (heap.shared.set j (SharedState.ready Completion.Completed))[i]? = _
    rw [getElem?_set_of_ne _ _ _ _ hij]
    exact hi
  · rw [hown]
    intro i hi
    rcases getElem?_set_cases _ _ _ _ _ hi with ⟨_, h2⟩ | ⟨hne, h2⟩
    · exact SharedState.noConfusion h2
    · rcases List.mem_cons.mp (hperm.mem_iff.mp (hcov i h2)) with h3 | h3
      · rw [hqj] at h3
        simp only [Promise.mk.injEq, Option.some.injEq] at h3
        exact absurd h3 hne
      · exact h3
  · intro p c hc
    have := hlast p c hc
    simpa using this
  · intro i hi
    rcases getElem?_set_cases _ _ _ _ _ hi with ⟨_, h2⟩ | ⟨_, h2⟩
    · exact SharedState.noConfusion h2
    · exact hnb i h2
  · intro i v h
    have hij : i ≠ j := by
      intro hc
      subst hc
      rw [hj] at h
      simp at h
    rw [getElem?_set_of_ne _ _ _ _ hij]
    exact h
  · intro i v hi hc
    have hlen : (heap.shared.set j (SharedState.ready Completion.Completed)).length
        = heap.shared.length := List.length_set _ _ _
    rw [List.getElem?_eq_none (by omega)] at hc
    exact Option.noConfusion hc

/-- Under the invariant a step does not throw, and the invariant holds after it. -/
theorem effect_preserves (construct : IntoT → T) (slot : Slot) (heap : Heap T)
    (held : List (Promise × T)) (st : Step IntoT) (hinv : HeapInv slot heap held) :
    ∃ h2 held2, effect construct slot heap held st = Except.ok (h2, held2)
      ∧ HeapInv slot h2 held2 ∧ Grows heap.shared h2.shared := by
  cases st with
  | enqueue t_args =>
    cases hcell : heap.mutexes slot.data with
    | none =>
      obtain ⟨h1, h2⟩ := heapInv_enqueue_empty construct slot t_args heap held hinv hcell
      exact ⟨_, held, by simp [effect, Slot.enqueue_of_empty construct slot t_args heap hcell],
        h1, h2⟩
    | some command =>
      obtain ⟨p, cmd⟩ := command
      obtain ⟨i, hpi, hi⟩ := hinv.2.1 p (by
        rw [owners_of_some slot heap held p cmd hcell]
        exact List.mem_cons_self _ _)
      subst hpi
      obtain ⟨h1, h2⟩ :=
        heapInv_enqueue_pending construct slot t_args heap held hinv i cmd hcell hi
      exact ⟨_, held,
        by simp [effect, Slot.enqueue_of_pending construct slot t_args heap i cmd hcell hi],
        h1, h2⟩
  | take =>
    obtain ⟨h1, h2⟩ := heapInv_take slot heap held hinv
    refine ⟨_, _, rfl, h1, ?_⟩
    rw [h2]
    exact grows_refl _
  | complete k =>
    cases hk : held[k]? with
    | none => exact ⟨heap, held, by simp [effect, hk], hinv, grows_refl _⟩
    | some command =>
      obtain ⟨q, cmd⟩ := command
      obtain ⟨j, _, hc, h1, h2⟩ := heapInv_complete slot heap held hinv k q cmd hk
      exact ⟨_, _, by simp [effect, hk, hc], h1, h2⟩

/-- The invariant of a run on its whole state. -/
theorem step_preserves (construct : IntoT → T) (slot : Slot) (s : State T) (st : Step IntoT)
    (hheap : HeapInv slot s.heap s.held) (hsig : SigInv s.heap.shared s.signals) :
    ∃ s2, step construct slot s st = Except.ok s2
      ∧ HeapInv slot s2.heap s2.held ∧ SigInv s2.heap.shared s2.signals := by
  obtain ⟨h2, held2, heff, hinv2, hgrow⟩ := effect_preserves construct slot s.heap s.held st hheap
  refine ⟨⟨h2, held2, s.signals ++ delivered s.heap.shared h2.shared⟩, ?_, hinv2, ?_⟩
  · simp [step, heff]
  · exact sigInv_step _ _ _ hsig hgrow hheap.2.2.2.2

theorem exec_preserves (construct : IntoT → T) (slot : Slot) (steps : List (Step IntoT))
    (s : State T) (hheap : HeapInv slot s.heap s.held)
    (hsig : SigInv s.heap.shared s.signals) :
    ∃ s2, exec construct slot steps s = Except.ok s2
      ∧ HeapInv slot s2.heap s2.held ∧ SigInv s2.heap.shared s2.signals := by
  induction steps generalizing s with
  | nil => exact ⟨s, rfl, hheap, hsig⟩
  | cons st rest ih =>
    obtain ⟨s1, hstep, h1, h2⟩ := step_preserves construct slot s st hheap hsig
    obtain ⟨s2, hexec, h3, h4⟩ := ih s1 h1 h2
    exact ⟨s2, by simp [exec, hstep, hexec], h3, h4⟩

theorem heapInv_init (slot : Slot) :
    HeapInv slot (init : State T).heap (init : State T).held := by
  refine ⟨by simp [init, owners, cellOwner], ?_, ?_, ?_, ?_⟩
  · intro p hp
    simp [init, owners, cellOwner] at hp
  · intro i hi
    simp [init] at hi
  · intro p cmd hc
    simp [init] at hc
  · intro i hi
    simp [init] at hi

theorem sigInv_init : SigInv (init : State T).heap.shared (init : State T).signals := by
  refine ⟨by simp [init], ?_⟩
  intro i v
  simp [init]

theorem step_length (construct : IntoT → T) (slot : Slot) (s s2 : State T) (st : Step IntoT)
    (hstep : step construct slot s st = Except.ok s2) :
    s2.heap.shared.length = s.heap.shared.length + enqueues [st] := by
  unfold step at hstep
  cases st with
  | enqueue t_args =>
    rcases Slot.enqueue_cases construct slot t_args s.heap with
      ⟨_, hok⟩ | ⟨i, cmd, _, _, hok⟩ | ⟨p, cmd, _, _, err, herr⟩
    · simp only [effect, hok, Except.ok.injEq] at hstep
      subst hstep
      simp [enqueues]
    · simp only [effect, hok, Except.ok.injEq] at hstep
      subst hstep
      simp [enqueues]
    · simp [effect, herr] at hstep
  | take =>
    simp only [effect, Except.ok.injEq] at hstep
    subst hstep
    cases hcell : s.heap.mutexes slot.data <;> simp [Consumer.take, hcell, enqueues]
  | complete k =>
    cases hk : s.held[k]? with
    | none =>
      simp only [effect, hk, Except.ok.injEq] at hstep
      subst hstep
      simp [enqueues]
    | some command =>
      obtain ⟨q, cmd⟩ := command
      cases hc : Consumer.complete q s.heap.shared with
      | error e => simp [effect, hk, hc] at hstep
      | ok shared =>
        simp only [effect, hk, hc, Except.ok.injEq] at hstep
        subst hstep
        unfold Consumer.complete Promise.set_value at hc
        cases hq : q.state with
        | none => simp [hq] at hc
        | some j =>
          cases hj : s.heap.shared[j]? with
          | none => simp [hq, hj] at hc
          | some sj =>
            cases sj with
            | pending =>
              simp [hq, hj] at hc
              subst hc
              simp [enqueues]
            | ready v => simp [hq, hj] at hc
            | broken => simp [hq, hj] at hc

theorem enqueues_cons (st : Step IntoT) (rest : List (Step IntoT)) :
    enqueues (st :: rest) = enqueues [st] + enqueues rest := by
  cases st <;> simp [enqueues, Nat.add_comm]

theorem exec_length (construct : IntoT → T) (slot : Slot) (steps : List (Step IntoT))
    (s s2 : State T) (hexec : exec construct slot steps s = Except.ok s2) :
    s2.heap.shared.length = s.heap.shared.length + enqueues steps := by
  induction steps generalizing s with
  | nil =>
    simp only [exec, Except.ok.injEq] at hexec
    subst hexec
    simp [enqueues]
  | cons st rest ih =>
    unfold exec at hexec
    cases hstep : step construct slot s st with
    | error e => simp [hstep] at hexec
    | ok s1 =>
      simp only [hstep] at hexec
      rw [ih s1 hexec, step_length construct slot s s1 st hstep, enqueues_cons st rest]
      omega

/-- Every run from the start executes without a throw and ends in a state satisfying the
invariant. -/
theorem exec_init (construct : IntoT → T) (slot : Slot) (steps : List (Step IntoT)) :
    ∃ s, exec construct slot steps init = Except.ok s
      ∧ HeapInv slot s.heap s.held ∧ SigInv s.heap.shared s.signals :=
  exec_preserves construct slot steps init (heapInv_init slot) sigInv_init

end Run

/-! ## Properties of runs of the slot -/

namespace Slot

variable {IntoT T : Type}

/-- C17 as stated fails: when the consumer signals `Completed` on the promise in the cell of
`pendingHeap` without emptying the cell, the heap is `resolvedHeap`, and `enqueue` on it does
not complete normally: it throws and returns no future. -/
theorem enqueue_never_fails_counterexample :
    Consumer.complete ⟨some 0⟩ pendingHeap.shared = Except.ok resolvedHeap.shared
    ∧ resolvedHeap.mutexes = pendingHeap.mutexes
    ∧ enqueue (fun n : Nat => n) (Slot.mk 0) 9 resolvedHeap
        = Except.error future_errc.promise_already_satisfied
    ∧ ¬ ∃ (fut : Future) (h2 : Heap Nat),
        enqueue (fun n : Nat => n) (Slot.mk 0) 9 resolvedHeap = Except.ok (fut, h2) := by
  have herr : enqueue (fun n : Nat => n) (Slot.mk 0) 9 resolvedHeap
      = Except.error future_errc.promise_already_satisfied := rfl
  refine ⟨rfl, rfl, herr, ?_⟩
  rintro ⟨fut, h2, hok⟩
  rw [herr] at hok
  exact Except.noConfusion hok

/-- C17, amended: `enqueue` completes normally exactly in the states where the guarded cell is
empty or holds a command whose promise is still unresolved; it then stores the new command
with a pending promise and returns the future of that promise. In every other state, a cell
holding a command whose promise is already resolved among them, it throws. -/
theorem enqueue_completes_iff (construct : IntoT → T) (slot : Slot) (t_args : IntoT)
    (h : Heap T) :
    ((∃ fut h2, enqueue construct slot t_args h = Except.ok (fut, h2))
        ↔ (h.mutexes slot.data = Option.none
          ∨ ∃ (i : Nat) (cmd : T), h.mutexes slot.data = some (⟨some i⟩, cmd)
              ∧ h.shared[i]? = some SharedState.pending))
    ∧ (∀ fut h2, enqueue construct slot t_args h = Except.ok (fut, h2) →
        h2.mutexes slot.data = some (⟨fut.state⟩, construct t_args)
        ∧ fut.state = some h.shared.length
        ∧ h2.shared[h.shared.length]? = some SharedState.pending)
    ∧ ((∃ err, enqueue construct slot t_args h = Except.error err)
        ↔ ∃ (p : Promise) (cmd : T), h.mutexes slot.data = some (p, cmd)
            ∧ ∀ i, p.state = some i → h.shared[i]? ≠ some SharedState.pending) := by
  rcases enqueue_cases construct slot t_args h with
    ⟨hcell, hok⟩ | ⟨i, cmd, hcell, hi, hok⟩ | ⟨p, cmd, hcell, hstale, err, herr⟩
  · refine ⟨⟨fun _ => Or.inl hcell, fun _ => ⟨_, _, hok⟩⟩, ?_, ?_⟩
    · intro fut h2 hfut
      rw [hok] at hfut
      simp only [Except.ok.injEq, Prod.mk.injEq] at hfut
      obtain ⟨rfl, rfl⟩ := hfut
      exact ⟨by simp, rfl, Run.getElem?_snoc_length _ _⟩
    · constructor
      · rintro ⟨e, he⟩
        rw [hok] at he
        exact Except.noConfusion he
      · rintro ⟨p, c, hc, _⟩
        rw [hcell] at hc
        exact Option.noConfusion hc
  · refine ⟨⟨fun _ => Or.inr ⟨i, cmd, hcell, hi⟩, fun _ => ⟨_, _, hok⟩⟩, ?_, ?_⟩
    · intro fut h2 hfut
      rw [hok] at hfut
      simp only [Except.ok.injEq, Prod.mk.injEq] at hfut
      obtain ⟨rfl, rfl⟩ := hfut
      refine ⟨by simp, rfl, ?_⟩
      have hlen : (h.shared.set i (SharedState.ready Completion.Preempted)).length
          = h.shared.length := List.length_set _ _ _
      rw [← hlen]
      exact Run.getElem?_snoc_length _ _
    · constructor
      · rintro ⟨e, he⟩
        rw [hok] at he
        exact Except.noConfusion he
      · rintro ⟨p, c, hc, hst⟩
        rw [hcell] at hc
        simp only [Option.some.injEq, Prod.mk.injEq] at hc
        obtain ⟨rfl, _⟩ := hc
        exact absurd hi (hst i rfl)
  · refine ⟨⟨?_, ?_⟩, ?_, ⟨fun _ => ⟨p, cmd, hcell, hstale⟩, fun _ => ⟨err, herr⟩⟩⟩
    · rintro ⟨fut, h2, hok⟩
      rw [herr] at hok
      exact Except.noConfusion hok
    · rintro (hc | ⟨i, c, hc, hi⟩)
      · rw [hcell] at hc
        exact Option.noConfusion hc
      · rw [hcell] at hc
        simp only [Option.some.injEq, Prod.mk.injEq] at hc
        obtain ⟨rfl, _⟩ := hc
        exact absurd hi (hstale i rfl)
    · intro fut h2 hok
      rw [herr] at hok
      exact Except.noConfusion hok

end Slot

namespace Run

variable {IntoT T : Type}

/-- C11: exactly one terminal signal per command. Every run of a single slot made of enqueue
steps and of consumer steps (take the pending command out of the cell, later resolve its
promise with `Completed`) executes without a throw, so no promise is resolved a second
time; in the state it ends in there is one shared state per enqueued command, allocated in
enqueue order, every command has received at most one signal, the signals are exactly the values the shared
states hold, never both `Completed` and `Preempted` for one command, and a command that has
been retired (it is neither in the cell nor held by the consumer) has received exactly one
signal. -/
theorem one_signal_per_command (construct : IntoT → T) (slot : Slot)
    (steps : List (Step IntoT)) :
    ∃ s, exec construct slot steps init = Except.ok s
      ∧ (∀ i, signalCount s i ≤ 1)
      ∧ (∀ (i : Nat) (v : Completion),
          (i, v) ∈ s.signals ↔ s.heap.shared[i]? = some (SharedState.ready v))
      ∧ (∀ i : Nat, ¬ ((i, Completion.Completed) ∈ s.signals
          ∧ (i, Completion.Preempted) ∈ s.signals))
      ∧ (∀ i : Nat, i < s.heap.shared.length →
          (⟨some i⟩ : Promise) ∉ owners slot s.heap s.held → signalCount s i = 1)
      ∧ s.heap.shared.length = enqueues steps := by
  obtain ⟨s, hexec, hheap, hsig⟩ := exec_init construct slot steps
  obtain ⟨_, _, hcov, _, hnb⟩ := hheap
  obtain ⟨hnd, hiff⟩ := hsig
  have hlen : s.heap.shared.length = enqueues steps := by
    rw [exec_length construct slot steps init s hexec]
    simp [init]
  refine ⟨s, hexec, ?_, hiff, ?_, ?_, hlen⟩
  · intro i
    exact List.nodup_iff_count_le_one.mp hnd i
  · rintro i ⟨h1, h2⟩
    have e1 := (hiff i _).mp h1
    have e2 := (hiff i _).mp h2
    rw [e1] at e2
    simp at e2
  · intro i hi hnot
    obtain ⟨st, hst⟩ : ∃ st, s.heap.shared[i]? = some st :=
      ⟨s.heap.shared[i], List.getElem?_eq_getElem hi⟩
    cases st with
    | pending => exact absurd (hcov i hst) hnot
    | broken => exact absurd hst (hnb i)
    | ready v =>
      have hmem : i ∈ s.signals.map Prod.fst :=
        List.mem_map.mpr ⟨(i, v), (hiff i v).mpr hst, rfl⟩
      exact List.count_eq_one_of_mem hnd hmem

/-- C12 as stated fails: in the run `enqueue(1)`, take, `enqueue(2)`, `enqueue(3)` the second
command is preempted by the third enqueue while the first, taken by the consumer and not yet
completed, is still unresolved. -/
theorem signal_order_counterexample :
    ∃ (s : State Nat) (a b : Nat) (v : Completion),
      exec (fun n : Nat => n) (Slot.mk 0) overtakingRun init = Except.ok s
      ∧ a < b
      ∧ s.heap.shared[b]? = some (SharedState.ready v)
      ∧ s.heap.shared[a]? = some SharedState.pending :=
  ⟨_, 0, 1, Completion.Preempted, rfl, by decide, rfl, rfl⟩

/-- C12, amended: signal ordering. In every run of a single slot made of enqueue steps and of
consumer steps, whenever command `a` was enqueued before command `b` (its shared state was
allocated first), the future of `b` is resolved and the future of `a` is still unresolved,
command `a` has been taken out of the cell by the consumer and is held by it, not yet
completed. -/
theorem signal_order_except_held (construct : IntoT → T) (slot : Slot)
    (steps : List (Step IntoT)) (s : State T) (a b : Nat) (v : Completion)
    (hrun : exec construct slot steps init = Except.ok s) (hab : a < b)
    (hb : s.heap.shared[b]? = some (SharedState.ready v))
    (ha : s.heap.shared[a]? = some SharedState.pending) :
    (⟨some a⟩ : Promise) ∈ s.held.map Prod.fst := by
  obtain ⟨s2, hexec, hheap, _⟩ := exec_init construct slot steps
  rw [hrun] at hexec
  simp only [Except.ok.injEq] at hexec
  subst hexec
  obtain ⟨_, _, hcov, hlast, _⟩ := hheap
  have hmem := hcov a ha
  obtain ⟨hblt, _⟩ := List.getElem?_eq_some.mp hb
  cases hcell : s.heap.mutexes slot.data with
  | none =>
    rw [owners_of_empty slot s.heap s.held hcell] at hmem
    exact hmem
  | some command =>
    obtain ⟨p, cmd⟩ := command
    rw [owners_of_some slot s.heap s.held p cmd hcell] at hmem
    rcases List.mem_cons.mp hmem with h | h
    · have hp := hlast p cmd hcell
      rw [← h] at hp
      simp only [Promise.mk.injEq, Option.some.injEq] at hp
      omega
    · exact h

/-- In the run `enqueue(1)`, take, `enqueue(2)`, `enqueue(3)` the first command is unresolved
after the second has been preempted, and it is held by the consumer. -/
theorem signal_order_except_held_witness :
    ∃ s : State Nat, exec (fun n : Nat => n) (Slot.mk 0) overtakingRun init = Except.ok s
      ∧ (0 : Nat) < 1
      ∧ s.heap.shared[1]? = some (SharedState.ready Completion.Preempted)
      ∧ s.heap.shared[0]? = some SharedState.pending
      ∧ (⟨some 0⟩ : Promise) ∈ s.held.map Prod.fst :=
  ⟨_, rfl, by decide, rfl, rfl,
    signal_order_except_held (fun n : Nat => n) (Slot.mk 0) overtakingRun _ 0 1
      Completion.Preempted rfl (by decide) rfl rfl⟩

end Run

/-! ## The store over dynamic bitsets -/

theorem max_bit_zero (fuel : Nat) : max_bit fuel 0 = 0 := by
  cases fuel <;> simp [max_bit]

theorem max_bit_succ (fuel m : Nat) (hm : m ≠ 0) :
    max_bit (fuel + 1) m = max_bit fuel (m / 2) + 1 := by
  rw [max_bit, if_neg hm, Nat.shiftRight_eq_div_pow, pow_one]

theorem max_bit_spec (fuel m : Nat) (h : m < 2 ^ fuel) :
    m < 2 ^ max_bit fuel m ∧ (m ≠ 0 → 2 ^ (max_bit fuel m - 1) ≤ m) := by
  induction fuel generalizing m with
  | zero =>
    have h0 : m = 0 := by
      simp at h
      exact h
    subst h0
    simp [max_bit]
  | succ fuel ih =>
    by_cases hm : m = 0
    · subst hm
      simp [max_bit_zero]
    · rw [max_bit_succ fuel m hm]
      have hhalf : m / 2 < 2 ^ fuel := by
        rw [pow_succ] at h
        omega
      by_cases hq : m / 2 = 0
      · rw [hq, max_bit_zero]
        simp
        omega
      · obtain ⟨h1, h2⟩ := ih (m / 2) hhalf
        have h3 := h2 hq
        generalize max_bit fuel (m / 2) = k at h1 h3
        refine ⟨?_, fun _ => ?_⟩
        · rw [pow_succ]
          omega
        · rw [Nat.add_sub_cancel]
          cases k with
          | zero =>
            simp at h1
            exact absurd h1 hq
          | succ k =>
            rw [Nat.add_sub_cancel] at h3
            rw [pow_succ]
            omega

namespace DynCalibration

/-- C18, evaluated on the code: the masks of `TEST(Calibration, disjoint_targets_)` have the
widths 5, 2, 4, 3 and 1, so the second call applies `&=` to bitsets of sizes 5 and 2. With
the assertion of `&=` the call has no result, and neither has the sequence; with the
assertion compiled out the sequence leaves the single group `(000001, 4)`. In neither case
are the five expected groups left. -/
theorem dynamic_disjoint_targets_fails :
    disjoint_targets_calls.map (fun call => call.1.size) = [5, 2, 4, 3, 1]
    ∧ (operator_db 0b10000).and_assign (operator_db 0b00010).flip = Option.none
    ∧ ((fresh : DynCalibration Int).set (operator_db 0b10000) 0).bind
        (fun c => c.set (operator_db 0b00010) 3) = Option.none
    ∧ (fresh : DynCalibration Int).setAll disjoint_targets_calls = Option.none
    ∧ ((fresh : DynCalibration Int).setAll_unchecked disjoint_targets_calls).get
        = [(operator_db 0b000001, 4)]
    ∧ ¬ List.Perm ((fresh : DynCalibration Int).setAll_unchecked disjoint_targets_calls).get
        disjoint_targets_expected := by
  refine ⟨by decide, by decide, by decide, by decide, by decide, ?_⟩
  intro hperm
  have hlen := hperm.length_eq
  have hget : ((fresh : DynCalibration Int).setAll_unchecked disjoint_targets_calls).get
      = [(operator_db 0b000001, 4)] := by decide
  rw [hget] at hlen
  simp [disjoint_targets_expected] at hlen

end DynCalibration
